import Mathlib

/-!
Verification of the field-resolution engine of smart-json-mocker.

The JavaScript/TypeScript sources are shallowly embedded: JSON-like runtime
values become the inductive type `Value` (JS `undefined` is a first-class
member, numbers are modelled as integers — no claim under scrutiny involves
fractional values or NaN), objects become insertion-ordered association
lists, and each source function is translated into a Lean function of the
same name.  In-place mutation of a freshly created structure is rendered as
pure rebuilding; a separate explicit-heap model (`Store`, further below) is
used for the one claim that is genuinely about aliasing and mutation of the
caller's record.  JS string primitives used by the sources
(`split('.')`, `toLowerCase`, `includes`, `startsWith`, `endsWith`,
`charCodeAt`) are re-implemented over `List Char` so that every definition
evaluates inside the kernel; `toLowerCase` is ASCII-only here, which agrees
with JS on every key the registry handles.
-/

/-- JSON-ish runtime values, with JS `undefined` explicit. -/
inductive Value where
  | vnull
  | vundef
  | vbool (b : Bool)
  | vnum (n : Int)
  | vstr (s : String)
  | arr (elems : List Value)
  | obj (fields : List (String × Value))

mutual

/-- Boolean structural equality on `Value` (used to derive `DecidableEq`). -/
def vbeq : Value → Value → Bool
  | .vnull, .vnull => true
  | .vundef, .vundef => true
  | .vbool a, .vbool b => a == b
  | .vnum a, .vnum b => a == b
  | .vstr a, .vstr b => a == b
  | .arr a, .arr b => vbeqList a b
  | .obj a, .obj b => vbeqFields a b
  | _, _ => false

def vbeqList : List Value → List Value → Bool
  | [], [] => true
  | a :: as, b :: bs => vbeq a b && vbeqList as bs
  | _, _ => false

def vbeqFields : List (String × Value) → List (String × Value) → Bool
  | [], [] => true
  | (k, a) :: as, (l, b) :: bs => k == l && vbeq a b && vbeqFields as bs
  | _, _ => false

end

mutual

theorem vbeq_iff : ∀ a b, vbeq a b = true ↔ a = b
  | .vnull, b => by cases b <;> simp [vbeq]
  | .vundef, b => by cases b <;> simp [vbeq]
  | .vbool x, b => by cases b <;> simp [vbeq]
  | .vnum x, b => by cases b <;> simp [vbeq]
  | .vstr x, b => by cases b <;> simp [vbeq]
  | .arr xs, b => by cases b <;> simp [vbeq, vbeqList_iff xs]
  | .obj xs, b => by cases b <;> simp [vbeq, vbeqFields_iff xs]

theorem vbeqList_iff : ∀ as bs, vbeqList as bs = true ↔ as = bs
  | [], bs => by cases bs <;> simp [vbeqList]
  | a :: as, bs => by cases bs <;> simp [vbeqList, vbeq_iff a, vbeqList_iff as]

theorem vbeqFields_iff : ∀ as bs, vbeqFields as bs = true ↔ as = bs
  | [], bs => by cases bs <;> simp [vbeqFields]
  | (k, a) :: as, bs => by
      cases bs with
      | nil => simp [vbeqFields]
      | cons hd tl =>
        obtain ⟨l, b⟩ := hd
        simp [vbeqFields, vbeq_iff a, vbeqFields_iff as]

end

instance : DecidableEq Value := fun a b => decidable_of_iff _ (vbeq_iff a b)

/-- JS `ToBoolean` (truthiness).  `0`, `false`, the empty string, `null` and
`undefined` are falsy; every object and array is truthy.  (NaN, the one
further falsy value, has no counterpart in the integer-valued model.) -/
def truthy : Value → Bool
  | .vnull => false
  | .vundef => false
  | .vbool b => b
  | .vnum n => n != 0
  | .vstr s => s != ""
  | .arr _ => true
  | .obj _ => true

/-- Source `isNullish` (src/utils): value is `null` or `undefined`. -/
def isNullish : Value → Bool
  | .vnull => true
  | .vundef => true
  | _ => false

/-- JS `String.prototype.trim` restricted to ASCII whitespace. -/
def jsTrim (s : String) : String :=
  String.mk ((s.data.dropWhile (·.toNat ≤ 32)).reverse.dropWhile (·.toNat ≤ 32) |>.reverse)

/-- Source `isEmpty` (src/utils): null/undefined, blank string, empty array
or empty object.  Note the object branch in the source also fires for
arrays, but the array case is caught one line earlier. -/
def isEmpty (v : Value) : Bool :=
  if isNullish v then true
  else match v with
    | .vstr s => jsTrim s == ""
    | .arr es => es.isEmpty
    | .obj fs => fs.isEmpty
    | _ => false

/-- Source `getValueType` (src/utils): `typeof` refined with null/array. -/
def getValueType : Value → String
  | .vnull => "null"
  | .vundef => "undefined"
  | .arr _ => "array"
  | .vbool _ => "boolean"
  | .vnum _ => "number"
  | .vstr _ => "string"
  | .obj _ => "object"

mutual

/-- Source `deepClone` (src/utils): primitives as-is, arrays mapped,
objects copied own-property by own-property. -/
def deepClone : Value → Value
  | .vnull => .vnull
  | .vundef => .vundef
  | .vbool b => .vbool b
  | .vnum n => .vnum n
  | .vstr s => .vstr s
  | .arr es => .arr (deepCloneList es)
  | .obj fs => .obj (deepCloneFields fs)

def deepCloneList : List Value → List Value
  | [] => []
  | v :: vs => deepClone v :: deepCloneList vs

def deepCloneFields : List (String × Value) → List (String × Value)
  | [] => []
  | (k, v) :: vs => (k, deepClone v) :: deepCloneFields vs

end

mutual

theorem deepClone_id : ∀ v, deepClone v = v
  | .vnull => rfl
  | .vundef => rfl
  | .vbool _ => rfl
  | .vnum _ => rfl
  | .vstr _ => rfl
  | .arr es => by rw [deepClone, deepCloneList_id]
  | .obj fs => by rw [deepClone, deepCloneFields_id]

theorem deepCloneList_id : ∀ es, deepCloneList es = es
  | [] => rfl
  | v :: vs => by rw [deepCloneList, deepClone_id, deepCloneList_id]

theorem deepCloneFields_id : ∀ fs, deepCloneFields fs = fs
  | [] => rfl
  | (k, v) :: vs => by rw [deepCloneFields, deepClone_id, deepCloneFields_id]

end

/-!
Path addressing (src/utils `setNestedValue` / `getNestedValue`).

`path.split('.')` and the segment regex `^(.+)\[(\d+)\]$` are modelled
character-exactly (`splitDot`, `parseSeg`; the greedy `(.+)` forces the
*last* `[` to start the index suffix, so `a[1][2]` is key `a[1]`, index 2).
`setNestedValue` mutates in place in the source; here it rebuilds the value
and returns `Option Value`, where `none` marks the executions the model
excludes: writing a property on a primitive (a strict-mode `TypeError` at
runtime) and using an array or a wrong-typed truthy value as the
record/array container a segment requires.  Conflict-free paths in the
sense of the spec never reach those branches.
-/

def isDigitChar (c : Char) : Bool := 48 ≤ c.toNat && c.toNat ≤ 57

def digitsToNat (ds : List Char) : Nat := ds.foldl (fun n c => n * 10 + (c.toNat - 48)) 0

/-- JS `path.split('.')` (no limit, keeps empty pieces, `"" → [""]`). -/
def splitDotAux : List Char → List Char → List String
  | [], acc => [String.mk acc.reverse]
  | c :: rest, acc =>
      if c = '.' then String.mk acc.reverse :: splitDotAux rest []
      else splitDotAux rest (c :: acc)

def splitDot (s : String) : List String := splitDotAux s.data []

/-- The segment regex `^(.+)\[(\d+)\]$`: returns `(key, some index)` when
the segment carries an array-index suffix, `(segment, none)` otherwise. -/
def parseSeg (s : String) : String × Option Nat :=
  match s.data.reverse with
  | ']' :: rest =>
      let ds := rest.takeWhile isDigitChar
      match rest.drop ds.length with
      | '[' :: pre =>
          if ds.isEmpty || pre.isEmpty then (s, none)
          else (String.mk pre.reverse, some (digitsToNat ds.reverse))
      | _ => (s, none)
  | _ => (s, none)

/-- JS property assignment on an insertion-ordered object: an existing key
keeps its position, a new key is appended. -/
def setKey : List (String × Value) → String → Value → List (String × Value)
  | [], k, v => [(k, v)]
  | (k', v') :: rest, k, v =>
      if k' = k then (k, v) :: rest else (k', v') :: setKey rest k v

/-- Canonical array-index property names (`"0"`, `"17"`, … but not `"00"`). -/
def canonIndex (s : String) : Option Nat :=
  match s.data with
  | [] => none
  | ['0'] => some 0
  | c :: rest =>
      if isDigitChar c && c ≠ '0' && rest.all isDigitChar then
        some (digitsToNat (c :: rest))
      else none

/-- JS property read `x[k]` for the value kinds the walker meets: object
keys, array indices and `length`, string indices and `length`; every other
read yields `undefined`. -/
def propGet : Value → String → Value
  | .obj fs, k => (List.lookup k fs).getD .vundef
  | .arr es, k =>
      if k = "length" then .vnum es.length
      else match canonIndex k with
        | some i => es.getD i .vundef
        | none => .vundef
  | .vstr s, k =>
      if k = "length" then .vnum s.length
      else match canonIndex k with
        | some i =>
            match s.data.get? i with
            | some c => .vstr (String.mk [c])
            | none => .vundef
        | none => .vundef
  | _, _ => Value.vundef

/-- JS `arr[i] = v` including hole-filling past the end (holes read back as
`undefined`). -/
def padWrite (es : List Value) (i : Nat) (v : Value) : List Value :=
  (es ++ List.replicate (i + 1 - es.length) Value.vundef).set i v

/-- Source `getNestedValue`, recursion over the split path. -/
def getParts : Value → List String → Value
  | current, [] => current
  | current, part :: rest =>
      if isNullish current then .vundef
      else match parseSeg part with
        | (k, some i) =>
            match propGet current k with
            | .arr es => getParts (es.getD i .vundef) rest
            | _ => .vundef
        | (_, none) => getParts (propGet current part) rest

/-- Source `getNestedValue (obj, path)`. -/
def getNestedValue (root : Value) (path : String) : Value :=
  getParts root (splitDot path)

/-- Source `setNestedValue`, recursion over the split path; see the section
comment for the meaning of `none`. -/
def setParts : Value → List String → Value → Option Value
  | .obj fs, [part], v =>
      match parseSeg part with
      | (k, some i) =>
          match List.lookup k fs with
          | some (.arr es) => some (.obj (setKey fs k (.arr (padWrite es i v))))
          | some c =>
              if truthy c then none
              else some (.obj (setKey fs k (.arr (padWrite [] i v))))
          | none => some (.obj (setKey fs k (.arr (padWrite [] i v))))
      | (_, none) => some (.obj (setKey fs part v))
  | .obj fs, part :: r1 :: rest, v =>
      match parseSeg part with
      | (k, some i) => do
          let es ←
            match List.lookup k fs with
            | some (.arr es) => some es
            | some c => if truthy c then none else some ([] : List Value)
            | none => some ([] : List Value)
          let el := es.getD i .vundef
          let child ←
            if truthy el then
              match el with
              | .obj gs => some (Value.obj gs)
              | _ => none
            else some (Value.obj [])
          let child' ← setParts child (r1 :: rest) v
          some (.obj (setKey fs k (.arr (padWrite es i child'))))
      | (k, none) => do
          let c := (List.lookup k fs).getD .vundef
          let child ←
            if truthy c then
              match c with
              | .obj gs => some (Value.obj gs)
              | _ => none
            else some (Value.obj [])
          let child' ← setParts child (r1 :: rest) v
          some (.obj (setKey fs k child'))
  | _, _, _ => none

/-- Source `setNestedValue (obj, path, value)`. -/
def setNestedValue (root : Value) (path : String) (v : Value) : Option Value :=
  setParts root (splitDot path) v

/-- The conflict-free-path predicate of the spec's round-trip property:
descending the path from `root`, every existing value a segment addresses
is either falsy/absent (auto-vivified by `set`) or a container of the kind
the segment requires (a plain object for a property segment and for an
array element being descended into, an array for an `[N]` container). -/
def noConflictParts : Value → List String → Bool
  | .obj fs, [part] =>
      match parseSeg part with
      | (k, some _) =>
          match List.lookup k fs with
          | some (.arr _) => true
          | some c => !truthy c
          | none => true
      | (_, none) => true
  | .obj fs, part :: r1 :: rest =>
      match parseSeg part with
      | (k, some i) =>
          match List.lookup k fs with
          | some (.arr es) =>
              let el := es.getD i .vundef
              if truthy el then
                match el with
                | .obj gs => noConflictParts (.obj gs) (r1 :: rest)
                | _ => false
              else noConflictParts (.obj []) (r1 :: rest)
          | some c => if truthy c then false else noConflictParts (.obj []) (r1 :: rest)
          | none => noConflictParts (.obj []) (r1 :: rest)
      | (k, none) =>
          match List.lookup k fs with
          | some c =>
              if truthy c then
                match c with
                | .obj gs => noConflictParts (.obj gs) (r1 :: rest)
                | _ => false
              else noConflictParts (.obj []) (r1 :: rest)
          | none => noConflictParts (.obj []) (r1 :: rest)
  | _, _ => false

/-!
Field extraction (src/utils `extractEmptyFields`, src/types `FieldInfo`).
-/

def isNullV : Value → Bool
  | .vnull => true
  | _ => false

def isUndefV : Value → Bool
  | .vundef => true
  | _ => false

/-- Source `FieldInfo` (src/types): one candidate field found by the walk. -/
structure FieldInfo where
  key : String
  path : String
  value : Value
  type : String
  parentKey : Option String
  isNull : Bool
  isEmpty : Bool
  isUndefined : Bool
deriving DecidableEq

mutual

/-- Source `extractEmptyFields (obj, path, parentKey)`.  The source walks
`for key in obj`; when the caller recurses into an array *element* that is
itself an array (allowed, since `typeof item === 'object'`), that inner
call enumerates the array's index keys, hence the `.arr` equation. -/
def extractEmptyFields : Value → String → Option String → List FieldInfo
  | .obj fs, path, parentKey => extractFieldList fs path parentKey
  | .arr es, path, parentKey => extractIdxList es 0 path parentKey
  | _, _, _ => []

def extractFieldList : List (String × Value) → String → Option String → List FieldInfo
  | [], _, _ => []
  | (key, value) :: rest, path, pk =>
      extractEntry key value path pk ++ extractFieldList rest path pk

def extractIdxList : List Value → Nat → String → Option String → List FieldInfo
  | [], _, _, _ => []
  | v :: rest, i, path, pk =>
      extractEntry (Nat.repr i) v path pk ++ extractIdxList rest (i + 1) path pk

/-- The per-property body of the source's `for key in obj` loop: emit a
descriptor for null/undefined/`''`, recurse into plain objects, emit empty
arrays, and recurse into object-typed elements of non-empty arrays. -/
def extractEntry (key : String) (value : Value) (path : String) (pk : Option String) : List FieldInfo :=
  let currentPath := if path ≠ "" then path ++ "." ++ key else key
  let fi : FieldInfo :=
    { key := key, path := currentPath, value := value, type := getValueType value,
      parentKey := pk, isNull := isNullV value, isEmpty := isEmpty value,
      isUndefined := isUndefV value }
  if fi.isNull || fi.isUndefined ||
      (match value with | .vstr s => s == "" | _ => false) then [fi]
  else match value with
    | .obj fs => extractFieldList fs currentPath (some key)
    | .arr es =>
        if es.isEmpty then [fi]
        else extractArrItems es 0 currentPath key
    | _ => []

def extractArrItems : List Value → Nat → String → String → List FieldInfo
  | [], _, _, _ => []
  | item :: rest, i, cp, key =>
      (match item with
       | .obj fs => extractFieldList fs (cp ++ "[" ++ Nat.repr i ++ "]") (some key)
       | .arr es => extractIdxList es 0 (cp ++ "[" ++ Nat.repr i ++ "]") (some key)
       | _ => []) ++ extractArrItems rest (i + 1) cp key

end

/-!
Cache-key derivation (src/utils `simpleHash`, src/core/cache
`CacheManager.generateKey`).

`simpleHash` is the `((h << 5) - h + c) | 0`-style 32-bit rolling hash over
the string's UTF-16 code units, finished with `Math.abs(h).toString(36)`.
JS `Array.prototype.sort()` on strings compares UTF-16 code units; the
model compares code points (`charListLe`), which coincides on all BMP
strings and in any case is a total order, which is all the key-stability
property needs.
-/

/-- UTF-16 code units of one character (surrogate pair above the BMP). -/
def charUtf16 (c : Char) : List Nat :=
  if c.toNat < 65536 then [c.toNat]
  else [55296 + (c.toNat - 65536) / 1024, 56320 + (c.toNat - 65536) % 1024]

/-- `charCodeAt` sequence of a string. -/
def strUtf16 (s : String) : List Nat := (s.data.map charUtf16).flatten

/-- JS `x | 0` / `x & x`: wrap an integer to signed 32-bit. -/
def toInt32 (x : Int) : Int := (x + 2 ^ 31) % 2 ^ 32 - 2 ^ 31

/-- One loop iteration of source `simpleHash`:
`hash = ((hash << 5) - hash) + char; hash = hash & hash`. -/
def hashStep (h : Int) (c : Nat) : Int := toInt32 (toInt32 (h * 32) - h + c)

def simpleHashInt (s : String) : Int := (strUtf16 s).foldl hashStep 0

def base36Digit (n : Nat) : Char :=
  if n < 10 then Char.ofNat (48 + n) else Char.ofNat (87 + n)

def base36Aux : Nat → Nat → List Char
  | 0, _ => []
  | fuel + 1, n => if n = 0 then [] else base36Aux fuel (n / 36) ++ [base36Digit (n % 36)]

/-- `Number.prototype.toString(36)` for naturals. -/
def natToBase36 (n : Nat) : String :=
  if n = 0 then "0" else String.mk (base36Aux (n + 1) n)

/-- Source `simpleHash` (src/utils). -/
def simpleHash (s : String) : String := natToBase36 (simpleHashInt s).natAbs

/-- Code-point lexicographic comparison of char lists (see section note). -/
def charListLe : List Char → List Char → Bool
  | [], _ => true
  | _ :: _, [] => false
  | a :: as, b :: bs =>
      if a.toNat < b.toNat then true
      else if b.toNat < a.toNat then false
      else charListLe as bs

def strLeB (a b : String) : Bool := charListLe a.data b.data

/-- JS `Array.prototype.sort()` on an array of strings: the stable sort in
lexicographic order. -/
def jsSortStrs (l : List String) : List String :=
  List.insertionSort (fun a b => strLeB a b = true) l

/-- JS `Array.prototype.join('|')`. -/
def joinBar : List String → String
  | [] => ""
  | [s] => s
  | s :: r1 :: rest => s ++ "|" ++ joinBar (r1 :: rest)

/-- Source `CacheManager.generateKey`: sort the `path:key` composites,
join with `|`, hash, and prepend the configured storage-key prefix. -/
def generateKey (pfx : String) (fields : List FieldInfo) : String :=
  pfx ++ simpleHash (joinBar (jsSortStrs (fields.map (fun f => f.path ++ ":" ++ f.key))))

/-!
Pattern registry (src/patterns, in the unnamed source file:
`createMatcher`, `builtInPatterns`, `findPattern`).

Value generators are pure random samplers and no claim under scrutiny
observes a generated value from the registry, so `PatternMatcher` carries
only the matching data (`name`, `priority`, predicate).  `createMatcher`
wraps the raw predicate so that the key is lower-cased before matching,
exactly as in the source.  The exported `builtInPatterns` is the
declaration-order list run through `Array.prototype.sort` with comparator
`(a, b) => b.priority - a.priority`; ECMAScript guarantees that sort to be
stable, so the result is the unique priority-descending,
declaration-order-on-ties permutation, which is what the stable insertion
sort `sortMatchers` computes.
-/

def jsToLower (s : String) : String := String.mk (s.data.map Char.toLower)

def isPrefixOfChars : List Char → List Char → Bool
  | [], _ => true
  | _ :: _, [] => false
  | a :: as, b :: bs => a == b && isPrefixOfChars as bs

def charsContain : List Char → List Char → Bool
  | [], sub => sub.isEmpty
  | c :: rest, sub => isPrefixOfChars sub (c :: rest) || charsContain rest sub

/-- JS `String.prototype.includes`. -/
def jsIncludes (s sub : String) : Bool := charsContain s.data sub.data

/-- JS `String.prototype.startsWith`. -/
def jsStartsWith (s sub : String) : Bool := isPrefixOfChars sub.data s.data

/-- JS `String.prototype.endsWith`. -/
def jsEndsWith (s sub : String) : Bool := isPrefixOfChars sub.data.reverse s.data.reverse

/-- Source `PatternMatcher` (matching data only, see section note). -/
structure PatternMatcher where
  name : String
  priority : Int
  matchKey : String → Bool

/-- Source `createMatcher`: lower-case the key, then apply the predicate. -/
def createMatcher (name : String) (rawMatch : String → Bool) (priority : Int) : PatternMatcher :=
  { name := name, priority := priority, matchKey := fun key => rawMatch (jsToLower key) }

/-- Source `builtInPatterns` array literal, in declaration order, before
the priority sort. -/
def builtInPatternsDecl : List PatternMatcher := [
  createMatcher "uuid" (fun k => k == "uuid" || k == "guid") 100,
  createMatcher "id" (fun k => k == "id" || k == "_id") 100,
  createMatcher "email" (fun k => k == "email" || k == "mail") 100,
  createMatcher "phone" (fun k => k == "phone" || k == "mobile" || k == "telephone") 100,
  createMatcher "avatar" (fun k => k == "avatar" || k == "profilepicture" || k == "profileimage") 100,
  createMatcher "username" (fun k => k == "username" || k == "login") 100,
  createMatcher "password" (fun k => k == "password" || k == "passwd") 100,
  createMatcher "firstName" (fun k => k == "firstname" || k == "first_name" || k == "givenname") 90,
  createMatcher "lastName" (fun k => k == "lastname" || k == "last_name" || k == "surname" || k == "familyname") 90,
  createMatcher "fullName" (fun k => k == "fullname" || k == "full_name" || k == "name" || k == "displayname") 85,
  createMatcher "city" (fun k => k == "city" || k == "town") 90,
  createMatcher "country" (fun k => k == "country" || k == "nation") 90,
  createMatcher "street" (fun k => k == "street" || k == "streetname") 90,
  createMatcher "zipCode" (fun k => k == "zipcode" || k == "zip" || k == "postalcode" || k == "postal") 90,
  createMatcher "address" (fun k => k == "address" || k == "location") 85,
  createMatcher "createdAt" (fun k => k == "createdat" || k == "created_at" || k == "creationdate") 90,
  createMatcher "updatedAt" (fun k => k == "updatedat" || k == "updated_at" || k == "modifiedat") 90,
  createMatcher "deletedAt" (fun k => k == "deletedat" || k == "deleted_at") 90,
  createMatcher "birthDate" (fun k => k == "birthdate" || k == "birthday" || k == "dob" || k == "dateofbirth") 90,
  createMatcher "company" (fun k => k == "company" || k == "organization" || k == "org") 90,
  createMatcher "jobTitle" (fun k => k == "jobtitle" || k == "job_title" || k == "title" || k == "position" || k == "role") 85,
  createMatcher "price" (fun k => k == "price" || k == "cost" || k == "amount") 90,
  createMatcher "quantity" (fun k => k == "quantity" || k == "qty" || k == "stock") 90,
  createMatcher "sku" (fun k => k == "sku" || k == "productcode") 90,
  createMatcher "category" (fun k => k == "category" || k == "type") 85,
  createMatcher "color" (fun k => k == "color" || k == "colour") 90,
  createMatcher "rating" (fun k => k == "rating" || k == "score" || k == "stars") 90,
  createMatcher "status" (fun k => k == "status" || k == "state") 90,
  createMatcher "description" (fun k => k == "description" || k == "desc" || k == "summary") 85,
  createMatcher "content" (fun k => k == "content" || k == "body" || k == "text") 85,
  createMatcher "url" (fun k => k == "url" || k == "link" || k == "href") 90,
  createMatcher "website" (fun k => k == "website" || k == "site" || k == "homepage") 90,
  createMatcher "containsEmail" (fun k => jsIncludes k "email") 70,
  createMatcher "containsPhone" (fun k => jsIncludes k "phone" || jsIncludes k "mobile" || jsIncludes k "tel") 70,
  createMatcher "containsName" (fun k => jsIncludes k "name" && !jsIncludes k "file" && !jsIncludes k "user") 60,
  createMatcher "containsUrl" (fun k => jsIncludes k "url" || jsIncludes k "link") 70,
  createMatcher "containsImage" (fun k => jsIncludes k "image" || jsIncludes k "img" || jsIncludes k "photo" || jsIncludes k "picture") 70,
  createMatcher "containsPrice" (fun k => jsIncludes k "price" || jsIncludes k "cost" || jsIncludes k "fee") 70,
  createMatcher "containsDate" (fun k => jsIncludes k "date" || jsIncludes k "time") 65,
  createMatcher "containsAddress" (fun k => jsIncludes k "address" || jsIncludes k "location") 65,
  createMatcher "containsCity" (fun k => jsIncludes k "city") 70,
  createMatcher "containsCountry" (fun k => jsIncludes k "country") 70,
  createMatcher "containsDescription" (fun k => jsIncludes k "description" || jsIncludes k "desc") 65,
  createMatcher "containsTitle" (fun k => jsIncludes k "title" || jsIncludes k "heading") 65,
  createMatcher "containsCount" (fun k => jsIncludes k "count" || jsIncludes k "total" || jsIncludes k "num") 65,
  createMatcher "suffixId" (fun k => jsEndsWith k "id" && k != "id") 60,
  createMatcher "suffixAt" (fun k => jsEndsWith k "at" || jsEndsWith k "_at") 60,
  createMatcher "suffixDate" (fun k => jsEndsWith k "date") 60,
  createMatcher "suffixTime" (fun k => jsEndsWith k "time") 60,
  createMatcher "suffixUrl" (fun k => jsEndsWith k "url") 60,
  createMatcher "suffixCount" (fun k => jsEndsWith k "count") 60,
  createMatcher "prefixIs" (fun k => jsStartsWith k "is" || jsStartsWith k "is_") 55,
  createMatcher "prefixHas" (fun k => jsStartsWith k "has" || jsStartsWith k "has_") 55,
  createMatcher "prefixCan" (fun k => jsStartsWith k "can" || jsStartsWith k "can_") 55,
  createMatcher "prefixTotal" (fun k => jsStartsWith k "total" || jsStartsWith k "total_") 55,
  createMatcher "prefixNum" (fun k => jsStartsWith k "num" || jsStartsWith k "num_") 55,
  createMatcher "latitude" (fun k => k == "lat" || k == "latitude") 90,
  createMatcher "longitude" (fun k => k == "lng" || k == "lon" || k == "longitude") 90,
  createMatcher "ip" (fun k => k == "ip" || k == "ipaddress" || k == "ip_address") 90,
  createMatcher "token" (fun k => k == "token" || k == "accesstoken" || k == "refreshtoken") 90,
  createMatcher "version" (fun k => k == "version" || k == "ver") 90]

/-- Stable insertion step for the priority-descending sort: a matcher goes
in front of the first strictly-lower-priority matcher, after its
equal-priority peers already placed. -/
def insertMatcher (m : PatternMatcher) : List PatternMatcher → List PatternMatcher
  | [] => [m]
  | x :: xs => if m.priority ≥ x.priority then m :: x :: xs else x :: insertMatcher m xs

/-- The stable priority-descending sort applied at registry construction
(`.sort((a, b) => b.priority - a.priority)`). -/
def sortMatchers (l : List PatternMatcher) : List PatternMatcher := l.foldr insertMatcher []

/-- Exported `builtInPatterns`: the declaration list, priority-sorted. -/
def builtInPatterns : List PatternMatcher := sortMatchers builtInPatternsDecl

/-- The scan inside source `findPattern`: first matcher accepting the key. -/
def findFirstMatcher (l : List PatternMatcher) (key : String) : Option PatternMatcher :=
  l.find? (fun p => p.matchKey key)

/-- Source `findPattern (key, path)`; the `path` argument is accepted and
ignored, exactly as in the source (matcher predicates take only the key). -/
def findPattern (key : String) (_path : String) : Option PatternMatcher :=
  findFirstMatcher builtInPatterns key

/-!
Override resolution (src/types `FieldOverrideValue`, src/core/mocker
`SmartMocker.resolveOverride`, src/utils `randomFrom`).

`Math.random()` is modelled as an exact rational `rnum / rden` in `[0, 1)`
(every double in `[0, 1)` is such a rational), so JS
`Math.floor(Math.random() * n)` is the integer division `rnum * n / rden`.
A `generator` or `enum` property present on a config object is assumed to
be function- or array-valued respectively, matching the `typeof` and
`Array.isArray` guards in the source; the claims never exercise mistyped
properties.
-/

/-- Source `FieldOverrideValue`: a literal primitive, a zero-argument
generator function, or a `FieldOverrideConfig` object whose optional
properties are `value`, `generator`, `enum`, `min`, `max`, `length`. -/
inductive OverrideVal where
  | prim (v : Value)
  | fn (g : Unit → Value)
  | config (valueProp : Option Value) (generatorProp : Option (Unit → Value))
      (enumProp : Option (List Value)) (minProp maxProp lengthProp : Option Int)

/-- JS `Math.floor(r * n)` for `r = rnum / rden`. -/
def floorRandMul (rnum rden n : Nat) : Nat := rnum * n / rden

/-- Source `randomFrom`: `arr[Math.floor(Math.random() * arr.length)]`;
on an empty array the out-of-bounds read yields `undefined`. -/
def randomFrom (rnum rden : Nat) (arr : List Value) : Value :=
  arr.getD (floorRandMul rnum rden arr.length) Value.vundef

/-- Source `SmartMocker.resolveOverride`, guard for guard: function
overrides are invoked; on a config object, `generator` wins over `value`,
which wins over `enum`; an enum is sampled by out-of-bounds-tolerant
indexing; and with none of the three present the config object itself is
returned (its remaining plain numeric properties). -/
def resolveOverride (rnum rden : Nat) : OverrideVal → Value
  | .fn g => g ()
  | .config valueProp generatorProp enumProp minProp maxProp lengthProp =>
      match generatorProp with
      | some g => g ()
      | none =>
          match valueProp with
          | some v => v
          | none =>
              match enumProp with
              | some es => es.getD (floorRandMul rnum rden es.length) .vundef
              | none =>
                  Value.obj
                    ((match minProp with | some m => [("min", Value.vnum m)] | none => []) ++
                     (match maxProp with | some m => [("max", Value.vnum m)] | none => []) ++
                     (match lengthProp with | some m => [("length", Value.vnum m)] | none => []))
  | .prim v => v

/-!
Retry (src/utils `retry`): bounded attempts over a fallible step, sleeping
`baseDelay * 2 ^ attempt` between consecutive attempts; when every attempt
throws, the last error is re-thrown (for zero configured attempts the
source throws the JS `undefined`, rendered `"undefined"` here).  The
attempt step is indexed by the attempt number so that a nondeterministic
collaborator can answer each attempt differently.
-/

structure RetryOut (α : Type) where
  result : Except String α
  attempts : Nat
  delays : List Nat

def retryAux (fn : Nat → Except String α) (baseDelay : Nat) (total : Nat) :
    Nat → Option String → RetryOut α
  | 0, lastErr => ⟨.error (lastErr.getD "undefined"), 0, []⟩
  | remaining + 1, _lastErr =>
      let i := total - (remaining + 1)
      match fn i with
      | .ok a => ⟨.ok a, 1, []⟩
      | .error e =>
          let rest := retryAux fn baseDelay total remaining (some e)
          ⟨rest.result, rest.attempts + 1,
            (if 1 ≤ remaining then [baseDelay * 2 ^ i] else []) ++ rest.delays⟩

/-- Source `retry (fn, maxRetries, baseDelay)`, instrumented with the
number of attempts made and the backoff delays slept. -/
def retry (fn : Nat → Except String α) (maxRetries baseDelay : Nat) : RetryOut α :=
  retryAux fn baseDelay maxRetries maxRetries none

/-!
The fill pipeline (src/core/mocker `SmartMocker.fill` and
`SmartMocker.generateWithAI`).

The external generation collaborator (`GeminiProvider.generateForFields`)
is opaque I/O; it is a parameter `provider : Nat → AIResponse` giving the
response to each attempt.  Crucially, the source of `generateForFields`
wraps its whole body in `try`/`catch` and reports every failure — API
error, timeout, unparseable content — as a *resolved* `{ success: false }`
value, never as a rejected promise; the model therefore hands `retry` the
always-succeeding step `fun n => Except.ok (provider n)`.  The free-form
`context` string is forwarded opaquely and affects nothing observable, so
it is not modelled.  The trace records what `fill` did: the cache key and
whether it hit, the descriptor list and overrides handed to the
collaborator (if it was consulted at all), attempts and backoff sleeps.
`fill` never references the pattern registry: `findPattern` does not occur
in this pipeline.
-/

/-- Source `AIResponse` (src/types); `data` is an object rendered as an
entry list in `Object.entries` order. -/
structure AIResponse where
  success : Bool
  data : Option (List (String × Value))
  error : Option String

/-- JS object spread `{ ...a, ...b }` on duplicate-free records: keys of
`a` keep their position (value overridden by `b` where present), new keys
of `b` are appended. -/
def spreadMerge (a b : List (String × OverrideVal)) : List (String × OverrideVal) :=
  a.map (fun p => match List.lookup p.1 b with | some v => (p.1, v) | none => p) ++
    b.filter (fun p => (List.lookup p.1 a).isNone)

/-- Source `FillOptions` restricted to the properties `fill` reads
(`fillEmptyArrays` and `arrayLength` are declared but never read by the
source of `fill`). -/
structure FillOptions where
  nullOnly : Bool
  undefinedOnly : Bool
  emptyStringsOnly : Bool
  overrides : List (String × OverrideVal)

/-- Trace of one `generateWithAI` call. -/
structure GenTrace where
  cacheKey : String
  cacheHit : Bool
  fieldsSent : Option (List FieldInfo)
  overridesSent : Option (List (String × OverrideVal))
  attemptsMade : Nat
  delays : List Nat
  result : Except String (List (String × Value))

/-- Source `SmartMocker.generateWithAI`: cache lookup first; on a miss the
collaborator is invoked through `retry`; a response that is not
(`success` and truthy `data`) becomes the thrown
`'Failed to generate data with AI provider'`. -/
def generateWithAI (pfx : String) (maxRetries baseDelay : Nat)
    (provider : Nat → AIResponse)
    (cacheGet : String → Option (List (String × Value)))
    (fields : List FieldInfo) (overrides : List (String × OverrideVal)) : GenTrace :=
  let key := generateKey pfx fields
  match cacheGet key with
  | some cached =>
      { cacheKey := key, cacheHit := true, fieldsSent := none, overridesSent := none,
        attemptsMade := 0, delays := [], result := .ok cached }
  | none =>
      let rt := retry (fun n => Except.ok (provider n)) maxRetries baseDelay
      { cacheKey := key, cacheHit := false, fieldsSent := some fields,
        overridesSent := some overrides, attemptsMade := rt.attempts, delays := rt.delays,
        result :=
          match rt.result with
          | .error e => .error e
          | .ok resp =>
              if resp.success then
                match resp.data with
                | some d => .ok d
                | none => .error "Failed to generate data with AI provider"
              else .error "Failed to generate data with AI provider" }

/-- The merge loop of `fill`: `setNestedValue(cloned, path, value)` for
each entry of the collaborator's data, in entry order. -/
def mergeData (v : Value) : List (String × Value) → Option Value
  | [] => some v
  | (p, val) :: rest =>
      match setNestedValue v p val with
      | some v' => mergeData v' rest
      | none => none

/-- Outcome of one `fill` call: the returned value or the propagated
error, plus the `generateWithAI` trace (`none` when `fill` returned the
clone before consulting cache or collaborator). -/
structure FillOut where
  result : Except String Value
  gen : Option GenTrace

/-- The extraction-and-filter steps of `fill`: `extractEmptyFields` on the
clone, then the sequential `nullOnly` / `undefinedOnly` /
`emptyStringsOnly` filters, exactly in source order. -/
def fillFields (cloned : Value) (opts : FillOptions) : List FieldInfo :=
  let fields0 := extractEmptyFields cloned "" none
  let fields1 := if opts.nullOnly then fields0.filter (fun f => f.isNull) else fields0
  let fields2 := if opts.undefinedOnly then fields1.filter (fun f => f.isUndefined) else fields1
  if opts.emptyStringsOnly then
    fields2.filter (fun f => match f.value with | .vstr s => s == "" | _ => false)
  else fields2

/-- Source `SmartMocker.fill`: clone, extract, filter per options, return
the clone when nothing is missing, otherwise one batched
`generateWithAI` call and a merge of its data. -/
def fill (pfx : String) (maxRetries baseDelay : Nat)
    (mockerOverrides : List (String × OverrideVal))
    (provider : Nat → AIResponse)
    (cacheGet : String → Option (List (String × Value)))
    (obj : Value) (opts : FillOptions) : FillOut :=
  let cloned := deepClone obj
  let merged := spreadMerge mockerOverrides opts.overrides
  let fields3 := fillFields cloned opts
  if fields3.isEmpty then ⟨.ok cloned, none⟩
  else
    let g := generateWithAI pfx maxRetries baseDelay provider cacheGet fields3 merged
    match g.result with
    | .error e => ⟨.error e, some g⟩
    | .ok d =>
        match mergeData cloned d with
        | some r => ⟨.ok r, some g⟩
        | none => ⟨.error "TypeError", some g⟩

/-!
Explicit-heap model, used for the frame claim that `fill` never mutates
the caller's record.

JS object identity and in-place mutation are made explicit: a `Store` maps
addresses to objects/arrays, values (`HVal`) are primitives or references,
and `setNestedValueH` re-traces the source `setNestedValue` as genuine
store updates along the reference chain.  `deepCloneH` is the source
`deepClone` (fuel-bounded: the source recursion diverges on cyclic inputs
too); it allocates a child before its parent, whereas JS allocates the
parent object first — address *choice* is the only difference, and no
property depends on it.  The data merged by `fill` comes from
`JSON.parse` of the collaborator response, i.e. from objects freshly
allocated outside the input record; `injectVal` models exactly that.
`materializeH` reads a heap value back as a pure `Value` tree, so
"the record is unchanged" can be stated as deep equality.
-/

inductive JPrim where
  | jnull
  | jundef
  | jbool (b : Bool)
  | jnum (n : Int)
  | jstr (s : String)
deriving DecidableEq

inductive HVal where
  | prim (p : JPrim)
  | ref (a : Nat)
deriving DecidableEq

inductive HObj where
  | hobj (fields : List (String × HVal))
  | harr (elems : List HVal)
deriving DecidableEq

structure Store where
  heap : List (Nat × HObj)
  next : Nat
deriving DecidableEq

def lookupH (st : Store) (a : Nat) : Option HObj := List.lookup a st.heap

def allocH (st : Store) (o : HObj) : Store × Nat :=
  (⟨st.heap ++ [(st.next, o)], st.next + 1⟩, st.next)

def updateH (st : Store) (a : Nat) (o : HObj) : Store :=
  ⟨st.heap.map (fun p => if p.1 = a then (a, o) else p), st.next⟩

def truthyH : HVal → Bool
  | .prim .jnull => false
  | .prim .jundef => false
  | .prim (.jbool b) => b
  | .prim (.jnum n) => n != 0
  | .prim (.jstr s) => s != ""
  | .ref _ => true

def primToValue : JPrim → Value
  | .jnull => .vnull
  | .jundef => .vundef
  | .jbool b => .vbool b
  | .jnum n => .vnum n
  | .jstr s => .vstr s

def setKeyH : List (String × HVal) → String → HVal → List (String × HVal)
  | [], k, v => [(k, v)]
  | (k', v') :: rest, k, v =>
      if k' = k then (k, v) :: rest else (k', v') :: setKeyH rest k v

def padWriteH (es : List HVal) (i : Nat) (v : HVal) : List HVal :=
  (es ++ List.replicate (i + 1 - es.length) (HVal.prim .jundef)).set i v

mutual

/-- Source `deepClone` on the heap: primitives as-is, every reachable
object re-allocated fresh; `none` = out of fuel (a cyclic input, on which
the source recursion diverges as well) or a dangling reference. -/
def deepCloneH : Nat → Store → HVal → Option (Store × HVal)
  | 0, _, _ => none
  | _ + 1, st, .prim p => some (st, .prim p)
  | fuel + 1, st, .ref a =>
      match lookupH st a with
      | none => none
      | some (.hobj fs) =>
          match cloneFieldsH fuel st fs with
          | none => none
          | some (st', fs') =>
              let al := allocH st' (.hobj fs')
              some (al.1, .ref al.2)
      | some (.harr es) =>
          match cloneElemsH fuel st es with
          | none => none
          | some (st', es') =>
              let al := allocH st' (.harr es')
              some (al.1, .ref al.2)

def cloneFieldsH : Nat → Store → List (String × HVal) → Option (Store × List (String × HVal))
  | 0, _, _ => none
  | _ + 1, st, [] => some (st, [])
  | fuel + 1, st, (k, v) :: rest =>
      match deepCloneH fuel st v with
      | none => none
      | some (st', v') =>
          match cloneFieldsH fuel st' rest with
          | none => none
          | some (st'', rest') => some (st'', (k, v') :: rest')

def cloneElemsH : Nat → Store → List HVal → Option (Store × List HVal)
  | 0, _, _ => none
  | _ + 1, st, [] => some (st, [])
  | fuel + 1, st, v :: rest =>
      match deepCloneH fuel st v with
      | none => none
      | some (st', v') =>
          match cloneElemsH fuel st' rest with
          | none => none
          | some (st'', rest') => some (st'', v' :: rest')

end

/-- Source `setNestedValue` on the heap, walking the reference chain from
the object at address `current` and mutating in place; `none` has the same
out-of-model meaning as for the pure `setParts`. -/
def setSegsH (st : Store) (current : Nat) : List String → HVal → Option Store
  | [part], v =>
      match lookupH st current with
      | some (.hobj fs) =>
          match parseSeg part with
          | (k, some i) =>
              match List.lookup k fs with
              | some (.ref c) =>
                  match lookupH st c with
                  | some (.harr es) => some (updateH st c (.harr (padWriteH es i v)))
                  | _ => none
              | some pv =>
                  if truthyH pv then none
                  else
                    let al := allocH st (.harr (padWriteH [] i v))
                    some (updateH al.1 current (.hobj (setKeyH fs k (.ref al.2))))
              | none =>
                  let al := allocH st (.harr (padWriteH [] i v))
                  some (updateH al.1 current (.hobj (setKeyH fs k (.ref al.2))))
          | (_, none) => some (updateH st current (.hobj (setKeyH fs part v)))
      | _ => none
  | part :: r1 :: rest, v =>
      match lookupH st current with
      | some (.hobj fs) =>
          match parseSeg part with
          | (k, some i) =>
              match
                (match List.lookup k fs with
                 | some (.ref c) =>
                     match lookupH st c with
                     | some (.harr es) => some (st, c, es)
                     | _ => none
                 | some pv =>
                     if truthyH pv then none
                     else
                       let al := allocH st (.harr [])
                       some (updateH al.1 current (.hobj (setKeyH fs k (.ref al.2))), al.2,
                         ([] : List HVal))
                 | none =>
                     let al := allocH st (.harr [])
                     some (updateH al.1 current (.hobj (setKeyH fs k (.ref al.2))), al.2,
                       ([] : List HVal))) with
              | none => none
              | some (st1, c, es) =>
                  match es.getD i (.prim .jundef) with
                  | .ref e =>
                      match lookupH st1 e with
                      | some (.hobj _) => setSegsH st1 e (r1 :: rest) v
                      | _ => none
                  | el =>
                      if truthyH el then none
                      else
                        let al := allocH st1 (.hobj [])
                        let st2 := updateH al.1 c (.harr (padWriteH es i (.ref al.2)))
                        setSegsH st2 al.2 (r1 :: rest) v
          | (k, none) =>
              match List.lookup k fs with
              | some (.ref c) =>
                  match lookupH st c with
                  | some (.hobj _) => setSegsH st c (r1 :: rest) v
                  | _ => none
              | some pv =>
                  if truthyH pv then none
                  else
                    let al := allocH st (.hobj [])
                    let st1 := updateH al.1 current (.hobj (setKeyH fs k (.ref al.2)))
                    setSegsH st1 al.2 (r1 :: rest) v
              | none =>
                  let al := allocH st (.hobj [])
                  let st1 := updateH al.1 current (.hobj (setKeyH fs k (.ref al.2)))
                  setSegsH st1 al.2 (r1 :: rest) v
      | _ => none
  | [], _ => none

def setNestedValueH (st : Store) (root : Nat) (path : String) (v : HVal) : Option Store :=
  setSegsH st root (splitDot path) v

mutual

/-- Allocate a pure JSON tree (e.g. the `JSON.parse`d collaborator data)
as fresh heap objects. -/
def injectVal : Store → Value → Store × HVal
  | st, .vnull => (st, .prim .jnull)
  | st, .vundef => (st, .prim .jundef)
  | st, .vbool b => (st, .prim (.jbool b))
  | st, .vnum n => (st, .prim (.jnum n))
  | st, .vstr s => (st, .prim (.jstr s))
  | st, .arr es =>
      let r := injectElems st es
      let al := allocH r.1 (.harr r.2)
      (al.1, .ref al.2)
  | st, .obj fs =>
      let r := injectFields st fs
      let al := allocH r.1 (.hobj r.2)
      (al.1, .ref al.2)

def injectElems : Store → List Value → Store × List HVal
  | st, [] => (st, [])
  | st, v :: vs =>
      let r := injectVal st v
      let r2 := injectElems r.1 vs
      (r2.1, r.2 :: r2.2)

def injectFields : Store → List (String × Value) → Store × List (String × HVal)
  | st, [] => (st, [])
  | st, (k, v) :: vs =>
      let r := injectVal st v
      let r2 := injectFields r.1 vs
      (r2.1, (k, r.2) :: r2.2)

end

/-- The merge loop of `fill` on the heap: inject each collaborator value,
then write it through `setNestedValueH` at the cloned root. -/
def heapMergeData (st : Store) (root : Nat) : List (String × Value) → Option Store
  | [] => some st
  | (p, val) :: rest =>
      let r := injectVal st val
      match setNestedValueH r.1 root p r.2 with
      | some st2 => heapMergeData st2 root rest
      | none => none

/-- The mutating skeleton of `fill` on the heap: deep-clone the caller's
record, then merge the collaborator data (possibly empty) into the clone.
Field extraction and the cache lookup read the store but never write it,
so they do not appear in the mutation model. -/
def fillHeap (fuel : Nat) (st : Store) (root : Nat) (data : List (String × Value)) :
    Option (Store × Nat) :=
  match deepCloneH fuel st (.ref root) with
  | some (st1, .ref cl) =>
      match heapMergeData st1 cl data with
      | some st2 => some (st2, cl)
      | none => none
  | _ => none

mutual

/-- Read a heap value back as a pure tree (fuel-bounded; cyclic records
have no finite reading, matching `JSON.stringify`-style divergence). -/
def materializeH : Nat → Store → HVal → Option Value
  | 0, _, _ => none
  | _ + 1, _, .prim p => some (primToValue p)
  | fuel + 1, st, .ref a =>
      match lookupH st a with
      | some (.hobj fs) => (matFieldsH fuel st fs).map Value.obj
      | some (.harr es) => (matElemsH fuel st es).map Value.arr
      | none => none

def matFieldsH : Nat → Store → List (String × HVal) → Option (List (String × Value))
  | 0, _, _ => none
  | _ + 1, _, [] => some []
  | fuel + 1, st, (k, v) :: rest =>
      match materializeH fuel st v with
      | none => none
      | some w =>
          match matFieldsH fuel st rest with
          | none => none
          | some ws => some ((k, w) :: ws)

def matElemsH : Nat → Store → List HVal → Option (List Value)
  | 0, _, _ => none
  | _ + 1, _, [] => some []
  | fuel + 1, st, v :: rest =>
      match materializeH fuel st v with
      | none => none
      | some w =>
          match matElemsH fuel st rest with
          | none => none
          | some ws => some (w :: ws)

end

/-- Stores agree at every address below `n`. -/
def agreesBelow (st' st : Store) (n : Nat) : Prop :=
  ∀ a, a < n → lookupH st' a = lookupH st a

def refAtLeast (n : Nat) : HVal → Prop
  | .prim _ => True
  | .ref a => n ≤ a

def objRefsAtLeast (n : Nat) : HObj → Prop
  | .hobj fs => ∀ p ∈ fs, refAtLeast n p.2
  | .harr es => ∀ v ∈ es, refAtLeast n v

/-- Every object stored at a high address references only high addresses
(the region of clone- and merge-allocated objects is self-contained). -/
def hiClosed (st : Store) (n : Nat) : Prop :=
  ∀ a o, n ≤ a → lookupH st a = some o → objRefsAtLeast n o

def refBelow (n : Nat) : HVal → Prop
  | .prim _ => True
  | .ref a => a < n

def objRefsBelow (n : Nat) : HObj → Prop
  | .hobj fs => ∀ p ∈ fs, refBelow n p.2
  | .harr es => ∀ v ∈ es, refBelow n v

/-- Every object stored at a low address references only low addresses
(the caller's original heap is self-contained below its `next`). -/
def loClosed (st : Store) (n : Nat) : Prop :=
  ∀ a o, a < n → lookupH st a = some o → objRefsBelow n o

/-- Every heap entry lives below the allocation counter. -/
def domBelow (st : Store) : Prop := ∀ p ∈ st.heap, p.1 < st.next

/-!
Helper lemmas.
-/

theorem lookup_setKey_self (fs : List (String × Value)) (k : String) (v : Value) :
    List.lookup k (setKey fs k v) = some v := by
  induction fs with
  | nil => simp [setKey, List.lookup]
  | cons hd rest ih =>
      obtain ⟨k', v'⟩ := hd
      by_cases h : k' = k
      · simp [setKey, h, List.lookup]
      · have hbeq : (k == k') = false := beq_eq_false_iff_ne.mpr (Ne.symm h)
        simp [setKey, h, List.lookup, hbeq, ih]

theorem getD_set_of_lt : ∀ (l : List Value) (i : Nat) (v : Value), i < l.length →
    (l.set i v).getD i .vundef = v := by
  intro l i v h
  simp [List.getD_eq_getElem?_getD, List.getElem?_set_self h]

theorem padWrite_length (es : List Value) (i : Nat) :
    i < (es ++ List.replicate (i + 1 - es.length) Value.vundef).length := by
  simp only [List.length_append, List.length_replicate]
  omega

theorem padWrite_getD (es : List Value) (i : Nat) (v : Value) :
    (padWrite es i v).getD i .vundef = v :=
  getD_set_of_lt _ _ _ (padWrite_length es i)

theorem find?_first : ∀ (l : List α) (p : α → Bool) (x : α), l.find? p = some x →
    ∃ l1 l2, l = l1 ++ x :: l2 ∧ (∀ y ∈ l1, p y = false) ∧ p x = true
  | [], p, x => by simp
  | a :: rest, p, x => by
      intro h
      cases hpa : p a with
      | true =>
          rw [List.find?_cons_of_pos _ hpa] at h
          injection h with h
          subst h
          exact ⟨[], rest, rfl, by simp, hpa⟩
      | false =>
          rw [List.find?_cons_of_neg _ (by simp [hpa])] at h
          obtain ⟨l1, l2, hsplit, hnone, hx⟩ := find?_first rest p x h
          refine ⟨a :: l1, l2, by simp [hsplit], ?_, hx⟩
          intro y hy
          rcases List.mem_cons.mp hy with h' | h'
          · subst h'; exact hpa
          · exact hnone y h'

theorem floorRandMul_lt (rnum rden n : Nat) (h : rnum < rden) (hn : 0 < n) :
    floorRandMul rnum rden n < n := by
  have hd : 0 < rden := Nat.lt_of_le_of_lt (Nat.zero_le _) h
  unfold floorRandMul
  rw [Nat.div_lt_iff_lt_mul hd]
  calc rnum * n < rden * n := (Nat.mul_lt_mul_right hn).mpr h
    _ = n * rden := Nat.mul_comm _ _

theorem getD_mem_of_lt (l : List Value) (i : Nat) (h : i < l.length) :
    l.getD i .vundef ∈ l := by
  rw [List.getD_eq_getElem?_getD, List.getElem?_eq_getElem h]
  exact List.getElem_mem h

/-!
Claim theorems.
-/

/-- C7: pattern lookup for `"username"` resolves to the exact-tier
`username` matcher (priority 100) and never to the generic `containsName`
matcher; lookup for `"filename"` matches no pattern at all — in particular
not `containsName`, whose own predicate rejects both keys (`"filename"`
contains `"file"`, `"username"` contains `"user"`). -/
theorem c7_username_filename_never_contains_name :
    (findPattern "username" "username").map
        (fun m => (m.name, m.priority)) = some ("username", 100) ∧
    findPattern "filename" "filename" = none ∧
    (builtInPatternsDecl.find? (fun m => m.name == "containsName")).map
        (fun m => (m.matchKey "filename", m.matchKey "username")) = some (false, false) :=
  ⟨rfl, rfl, rfl⟩

/-- C8 counterexample: resolving an enum override with zero candidates
does not fail — no `ConfigurationError` (or any error) exists on this
path; the out-of-bounds index read silently yields `undefined`, both in
`SmartMocker.resolveOverride` and in `randomFrom`. -/
theorem c8_empty_enum_yields_undefined_counterexample :
    resolveOverride 1 2 (.config none none (some []) none none none) = .vundef ∧
    randomFrom 1 2 [] = .vundef :=
  ⟨rfl, rfl⟩

/-- C8 amended: resolving an enum override with zero candidate values
silently produces `undefined` (for every random draw), rather than failing
with any error; for a non-empty enum, resolution — and likewise
`randomFrom`, used by the local provider's enum branch — returns one of
the listed elements. -/
theorem c8_enum_resolution_amended :
    (∀ rnum rden : Nat,
      resolveOverride rnum rden (.config none none (some []) none none none) = .vundef) ∧
    (∀ (rnum rden : Nat) (es : List Value), rnum < rden → es ≠ [] →
      resolveOverride rnum rden (.config none none (some es) none none none) ∈ es ∧
      randomFrom rnum rden es ∈ es) := by
  constructor
  · intro rnum rden
    simp [resolveOverride, floorRandMul]
  · intro rnum rden es h hne
    have hn : 0 < es.length := List.length_pos.mpr hne
    have hlt := floorRandMul_lt rnum rden es.length h hn
    exact ⟨getD_mem_of_lt es _ hlt, getD_mem_of_lt es _ hlt⟩

/-- C8 witness: the amended theorem at `random = 1/2` and the enum
`["active", "closed"]` (the draw resolves to `"closed"`). -/
theorem c8_enum_resolution_witness :
    resolveOverride 1 2
        (.config none none (some [.vstr "active", .vstr "closed"]) none none none)
      ∈ [Value.vstr "active", Value.vstr "closed"] ∧
    randomFrom 1 2 [Value.vstr "active", Value.vstr "closed"]
      ∈ [Value.vstr "active", Value.vstr "closed"] :=
  c8_enum_resolution_amended.2 1 2 [Value.vstr "active", Value.vstr "closed"]
    (by decide) (by decide)

/-- C10: when an intermediate path segment addresses a present-but-falsy
value (`0`, `false`, `""`, `null` — and `undefined` alike), `setNestedValue`
replaces it with a freshly created empty object (or a fresh empty array
when the segment carries an `[N]` index and the falsy value sat where the
array container belongs) before descending, destroying the falsy value;
a truthy existing object is descended into unchanged.  The final conjunct
shows the destruction concretely: `set({a: 0}, "a.b", true)` leaves no
trace of the `0`. -/
theorem c10_falsy_intermediate_replaced :
    (∀ (fs : List (String × Value)) (part r1 : String) (rest : List String) (v w : Value),
      parseSeg part = (part, none) → List.lookup part fs = some w → truthy w = false →
      setParts (.obj fs) (part :: r1 :: rest) v
        = (setParts (.obj []) (r1 :: rest) v).map (fun child => .obj (setKey fs part child))) ∧
    (∀ (fs : List (String × Value)) (part r1 : String) (rest : List String) (v : Value)
        (gs : List (String × Value)),
      parseSeg part = (part, none) → List.lookup part fs = some (.obj gs) →
      setParts (.obj fs) (part :: r1 :: rest) v
        = (setParts (.obj gs) (r1 :: rest) v).map (fun child => .obj (setKey fs part child))) ∧
    (∀ (fs : List (String × Value)) (part k r1 : String) (i : Nat) (rest : List String)
        (v w : Value),
      parseSeg part = (k, some i) → List.lookup k fs = some w → truthy w = false →
      setParts (.obj fs) (part :: r1 :: rest) v
        = (setParts (.obj []) (r1 :: rest) v).map
            (fun child => .obj (setKey fs k (.arr (padWrite [] i child))))) ∧
    setNestedValue (.obj [("a", .vnum 0)]) "a.b" (.vbool true)
      = some (.obj [("a", .obj [("b", .vbool true)])]) := by
  refine ⟨?_, ?_, ?_, rfl⟩
  · intro fs part r1 rest v w hparse hlook hw
    cases hres : setParts (.obj []) (r1 :: rest) v <;>
      simp [setParts, hparse, hlook, hw, hres]
  · intro fs part r1 rest v gs hparse hlook
    cases hres : setParts (.obj gs) (r1 :: rest) v <;>
      simp [setParts, hparse, hlook, truthy, hres]
  · intro fs part k r1 i rest v w hparse hlook hw
    simp only [setNestedValue, setParts, hparse, hlook]
    cases w <;> cases hres : setParts (.obj []) (r1 :: rest) v <;>
      simp_all [truthy, List.getD]

/-- C10 witness: the falsy-replacement equation at `{a: 0}`, path
`a.b`, value `true`. -/
theorem c10_falsy_intermediate_replaced_witness :
    setParts (.obj [("a", .vnum 0)]) ["a", "b"] (.vbool true)
      = (setParts (.obj []) ["b"] (.vbool true)).map
          (fun child => .obj (setKey [("a", .vnum 0)] "a" child)) :=
  c10_falsy_intermediate_replaced.1 [("a", .vnum 0)] "a" "b" [] (.vbool true) (.vnum 0)
    rfl rfl rfl

/-- C5: `findPattern` lower-cases the key (inside each matcher, as
`createMatcher` builds them) and scans the pre-sorted registry
first-match-wins.  Conjuncts: (1) the registry order is exactly the
priority-descending, declaration-order-on-ties permutation of the declared
matchers (spelled out name by name); (2) a successful lookup returns a
matcher accepting the key such that every matcher placed before it rejects
the key; (3) a failed lookup means no registered matcher accepts the key;
(4) for any two matchers of priorities 90 and 60 put through the same
registry construction, in either declaration order, a key accepted by the
priority-90 matcher always resolves to it. -/
theorem c5_find_pattern_priority_determinism :
    (builtInPatterns.map (fun m => (m.name, m.priority)) =
      [("uuid", 100), ("id", 100), ("email", 100), ("phone", 100), ("avatar", 100),
       ("username", 100), ("password", 100), ("firstName", 90), ("lastName", 90),
       ("city", 90), ("country", 90), ("street", 90), ("zipCode", 90), ("createdAt", 90),
       ("updatedAt", 90), ("deletedAt", 90), ("birthDate", 90), ("company", 90),
       ("price", 90), ("quantity", 90), ("sku", 90), ("color", 90), ("rating", 90),
       ("status", 90), ("url", 90), ("website", 90), ("latitude", 90), ("longitude", 90),
       ("ip", 90), ("token", 90), ("version", 90), ("fullName", 85), ("address", 85),
       ("jobTitle", 85), ("category", 85), ("description", 85), ("content", 85),
       ("containsEmail", 70), ("containsPhone", 70), ("containsUrl", 70),
       ("containsImage", 70), ("containsPrice", 70), ("containsCity", 70),
       ("containsCountry", 70), ("containsDate", 65), ("containsAddress", 65),
       ("containsDescription", 65), ("containsTitle", 65), ("containsCount", 65),
       ("containsName", 60), ("suffixId", 60), ("suffixAt", 60), ("suffixDate", 60),
       ("suffixTime", 60), ("suffixUrl", 60), ("suffixCount", 60), ("prefixIs", 55),
       ("prefixHas", 55), ("prefixCan", 55), ("prefixTotal", 55), ("prefixNum", 55)]) ∧
    (∀ (key path : String) (m : PatternMatcher), findPattern key path = some m →
      ∃ pre post, builtInPatterns = pre ++ m :: post ∧
        (∀ p ∈ pre, p.matchKey key = false) ∧ m.matchKey key = true) ∧
    (∀ key path : String, findPattern key path = none →
      ∀ p ∈ builtInPatterns, p.matchKey key = false) ∧
    (∀ (m1 m2 : PatternMatcher) (key : String), m1.priority = 90 → m2.priority = 60 →
      m1.matchKey key = true →
      findFirstMatcher (sortMatchers [m1, m2]) key = some m1 ∧
      findFirstMatcher (sortMatchers [m2, m1]) key = some m1) := by
  refine ⟨rfl, ?_, ?_, ?_⟩
  · intro key path m h
    exact find?_first _ _ _ h
  · intro key path h p hp
    exact Bool.not_eq_true _ ▸ (List.find?_eq_none.mp h p hp)
  · intro m1 m2 key h1 h2 hm
    have hsort1 : sortMatchers [m1, m2] = [m1, m2] := by
      simp [sortMatchers, insertMatcher, h1, h2]
    have hsort2 : sortMatchers [m2, m1] = [m1, m2] := by
      simp [sortMatchers, insertMatcher, h1, h2]
    rw [hsort1, hsort2]
    constructor <;> simp [findFirstMatcher, List.find?, hm]

/-- C5 witness: two concrete matchers of priorities 90 and 60 that both
accept `"orderDate"`, fed through the registry construction in both
declaration orders; the priority-90 matcher always wins. -/
theorem c5_find_pattern_priority_determinism_witness :
    findFirstMatcher (sortMatchers [createMatcher "m1" (fun k => k == "orderdate") 90,
        createMatcher "m2" (fun k => jsIncludes k "date") 60]) "orderDate"
      = some (createMatcher "m1" (fun k => k == "orderdate") 90) ∧
    findFirstMatcher (sortMatchers [createMatcher "m2" (fun k => jsIncludes k "date") 60,
        createMatcher "m1" (fun k => k == "orderdate") 90]) "orderDate"
      = some (createMatcher "m1" (fun k => k == "orderdate") 90) :=
  c5_find_pattern_priority_determinism.2.2.2
    (createMatcher "m1" (fun k => k == "orderdate") 90)
    (createMatcher "m2" (fun k => jsIncludes k "date") 60) "orderDate" rfl rfl rfl

theorem charListLe_total : ∀ a b, charListLe a b = true ∨ charListLe b a = true := by
  intro a
  induction a with
  | nil => intro b; left; cases b <;> rfl
  | cons x xs ih =>
      intro b
      cases b with
      | nil => right; rfl
      | cons y ys =>
          by_cases h1 : x.toNat < y.toNat
          · left; simp [charListLe, h1]
          · by_cases h2 : y.toNat < x.toNat
            · right; simp [charListLe, h2, h1]
            · rcases ih ys with ih' | ih'
              · left; simp [charListLe, h1, h2, ih']
              · right; simp [charListLe, h1, h2, ih']

theorem charListLe_trans : ∀ a b c, charListLe a b = true → charListLe b c = true →
    charListLe a c = true := by
  intro a
  induction a with
  | nil => intro b c _ _; cases c <;> rfl
  | cons x xs ih =>
      intro b c hab hbc
      cases b with
      | nil => simp [charListLe] at hab
      | cons y ys =>
          cases c with
          | nil => simp [charListLe] at hbc
          | cons z zs =>
              simp only [charListLe] at hab hbc ⊢
              split_ifs at hab hbc ⊢ with h1 h2 h3 h4 h5 h6 <;>
                first
                | rfl
                | omega
                | exact ih ys zs hab hbc

theorem charListLe_antisymm : ∀ a b, charListLe a b = true → charListLe b a = true →
    a = b := by
  intro a
  induction a with
  | nil => intro b hab hba; cases b with
      | nil => rfl
      | cons y ys => simp [charListLe] at hba
  | cons x xs ih =>
      intro b hab hba
      cases b with
      | nil => simp [charListLe] at hab
      | cons y ys =>
          simp only [charListLe] at hab hba
          split_ifs at hab hba with h1 h2 <;> try omega
          have hn : x.toNat = y.toNat := by omega
          have hxy : x = y := Char.eq_of_val_eq (UInt32.ext hn)
          rw [hxy, ih ys hab hba]

theorem strLeB_antisymm (a b : String) (hab : strLeB a b = true) (hba : strLeB b a = true) :
    a = b := by
  cases a with
  | mk da =>
      cases b with
      | mk db => exact congrArg String.mk (charListLe_antisymm da db hab hba)

theorem jsSortStrs_eq_of_perm (l1 l2 : List String) (h : l1.Perm l2) :
    jsSortStrs l1 = jsSortStrs l2 := by
  haveI instTot : IsTotal String (fun a b => strLeB a b = true) :=
    ⟨fun a b => charListLe_total a.data b.data⟩
  haveI instTrans : IsTrans String (fun a b => strLeB a b = true) :=
    ⟨fun a b c => charListLe_trans a.data b.data c.data⟩
  haveI instAnti : IsAntisymm String (fun a b => strLeB a b = true) := ⟨strLeB_antisymm⟩
  exact @List.eq_of_perm_of_sorted String (fun a b => strLeB a b = true) instAnti _ _
    ((List.perm_insertionSort _ l1).trans (h.trans (List.perm_insertionSort _ l2).symm))
    (List.sorted_insertionSort _ l1) (List.sorted_insertionSort _ l2)

/-- C6: the derived cache key is invariant under any reordering of the
descriptor list — the `path:key` composites are sorted before joining and
hashing — and concretely the descriptors extracted from `{a: null,
b: null}` and from `{b: null, a: null}` yield the same key. -/
theorem c6_cache_key_order_invariant :
    (∀ (pfx : String) (f1 f2 : List FieldInfo),
      (f1.map (fun f => f.path ++ ":" ++ f.key)).Perm
        (f2.map (fun f => f.path ++ ":" ++ f.key)) →
      generateKey pfx f1 = generateKey pfx f2) ∧
    generateKey "sjm_" (extractEmptyFields (.obj [("a", .vnull), ("b", .vnull)]) "" none)
      = generateKey "sjm_" (extractEmptyFields (.obj [("b", .vnull), ("a", .vnull)]) "" none) := by
  constructor
  · intro pfx f1 f2 h
    unfold generateKey
    rw [jsSortStrs_eq_of_perm _ _ h]
  · rfl

/-- C6 witness: the reordering invariance applied to the two-field record
with a non-default prefix. -/
theorem c6_cache_key_order_invariant_witness :
    generateKey "x_" (extractEmptyFields (.obj [("a", .vnull), ("b", .vnull)]) "" none)
      = generateKey "x_" (extractEmptyFields (.obj [("b", .vnull), ("a", .vnull)]) "" none) :=
  c6_cache_key_order_invariant.1 "x_" _ _ (List.Perm.swap "b:b" "a:a" [])

theorem parseSeg_none_fst (s : String) (h : (parseSeg s).2 = none) : (parseSeg s).1 = s := by
  unfold parseSeg at h ⊢
  split at h
  · dsimp only at h ⊢
    split at h
    · split at h <;> simp_all
    · rfl
  · rfl

theorem padWrite_getElem (es : List Value) (i : Nat) (v : Value) :
    (padWrite es i v)[i]?.getD Value.vundef = v := by
  unfold padWrite
  rw [List.getElem?_set_self (padWrite_length es i)]
  rfl

theorem propGet_setKey (fs : List (String × Value)) (k : String) (v : Value) :
    propGet (.obj (setKey fs k v)) k = v := by
  simp [propGet, lookup_setKey_self]

theorem getParts_cons_plain (gs' : List (String × Value)) (part : String) (rest : List String)
    (k : String) (h : parseSeg part = (k, none)) :
    getParts (.obj gs') (part :: rest) = getParts (propGet (.obj gs') part) rest := by
  simp only [getParts, isNullish, h, Bool.false_eq_true, if_false]

theorem getParts_cons_idx (gs' : List (String × Value)) (part : String) (rest : List String)
    (k : String) (i : Nat) (es : List Value) (h : parseSeg part = (k, some i))
    (harr : propGet (.obj gs') k = .arr es) :
    getParts (.obj gs') (part :: rest) = getParts (es.getD i .vundef) rest := by
  simp only [getParts, isNullish, h, harr, Bool.false_eq_true, if_false]

theorem setParts_get_roundtrip : ∀ (parts : List String) (fs : List (String × Value)) (v : Value),
    noConflictParts (.obj fs) parts = true →
    ∃ gs, setParts (.obj fs) parts v = some (.obj gs) ∧ getParts (.obj gs) parts = v := by
  intro parts
  induction parts with
  | nil => intro fs v h; simp [noConflictParts] at h
  | cons part rest ih =>
      intro fs v h
      cases rest with
      | nil =>
          rcases hp : parseSeg part with ⟨k, idx⟩
          cases idx with
          | none =>
              refine ⟨setKey fs part v, ?_, ?_⟩
              · simp [setParts, hp]
              · simp [getParts, isNullish, hp, propGet, lookup_setKey_self]
          | some i =>
              simp only [noConflictParts, hp] at h
              rcases hl : List.lookup k fs with _ | c
              · refine ⟨setKey fs k (.arr (padWrite [] i v)), ?_, ?_⟩
                · simp [setParts, hp, hl]
                · simp [getParts, isNullish, hp, propGet, lookup_setKey_self, padWrite_getD,
                    padWrite_getElem]
              · simp only [hl] at h
                cases c with
                | arr es =>
                    refine ⟨setKey fs k (.arr (padWrite es i v)), ?_, ?_⟩
                    · simp [setParts, hp, hl]
                    · simp [getParts, isNullish, hp, propGet, lookup_setKey_self, padWrite_getD,
                        padWrite_getElem]
                | _ =>
                    simp only [Bool.not_eq_true'] at h
                    refine ⟨setKey fs k (.arr (padWrite [] i v)), ?_, ?_⟩
                    · simp [setParts, hp, hl, h]
                    · simp [getParts, isNullish, hp, propGet, lookup_setKey_self, padWrite_getD,
                        padWrite_getElem]
      | cons r1 rest' =>
          rcases hp : parseSeg part with ⟨k, idx⟩
          cases idx with
          | none =>
              have hk : k = part := by
                have h2 := parseSeg_none_fst part (by rw [hp])
                rw [hp] at h2; exact h2
              subst hk
              simp only [noConflictParts, hp] at h
              rcases hl : List.lookup k fs with _ | c
              · simp only [hl] at h
                obtain ⟨gs, hset, hget⟩ := ih [] v h
                refine ⟨setKey fs k (.obj gs), ?_, ?_⟩
                · simp [setParts, hp, hl, hset, truthy]
                · rw [getParts_cons_plain _ _ _ _ hp, propGet_setKey]
                  exact hget
              · simp only [hl] at h
                by_cases ht : truthy c = true
                · rw [if_pos ht] at h
                  cases c with
                  | obj gs0 =>
                      obtain ⟨gs, hset, hget⟩ := ih gs0 v h
                      refine ⟨setKey fs k (.obj gs), ?_, ?_⟩
                      · simp [setParts, hp, hl, ht, hset]
                      · rw [getParts_cons_plain _ _ _ _ hp, propGet_setKey]
                        exact hget
                  | _ => simp_all
                · rw [if_neg ht] at h
                  obtain ⟨gs, hset, hget⟩ := ih [] v h
                  refine ⟨setKey fs k (.obj gs), ?_, ?_⟩
                  · simp [setParts, hp, hl, ht, hset]
                  · rw [getParts_cons_plain _ _ _ _ hp, propGet_setKey]
                    exact hget
          | some i =>
              simp only [noConflictParts, hp] at h
              split at h
              case h_1 =>
                  rename_i es hl
                  simp only [List.getD_eq_getElem?_getD] at h
                  rcases hel : es[i]?.getD Value.vundef with _ | _ | b | n | s | es0 | gs0
                  case obj =>
                    rw [hel] at h
                    simp [truthy] at h
                    obtain ⟨gs, hset, hget⟩ := ih gs0 v h
                    refine ⟨setKey fs k (.arr (padWrite es i (.obj gs))), ?_, ?_⟩
                    · simp [setParts, hp, hl, hel, truthy, hset]
                    · rw [getParts_cons_idx _ _ _ _ i (padWrite es i (.obj gs)) hp
                          (propGet_setKey _ _ _), padWrite_getD]
                      exact hget
                  case arr => rw [hel] at h; simp [truthy] at h
                  all_goals {
                    rw [hel] at h
                    by_cases ht : truthy (es[i]?.getD Value.vundef) = true
                    · rw [hel] at ht
                      rw [if_pos ht] at h
                      simp_all
                    · rw [hel] at ht
                      rw [if_neg ht] at h
                      obtain ⟨gs, hset, hget⟩ := ih [] v h
                      refine ⟨setKey fs k (.arr (padWrite es i (.obj gs))), ?_, ?_⟩
                      · simp [setParts, hp, hl, hel, ht, hset]
                      · rw [getParts_cons_idx _ _ _ _ i (padWrite es i (.obj gs)) hp
                            (propGet_setKey _ _ _), padWrite_getD]
                        exact hget
                  }
              case h_3 =>
                  rename_i hl
                  obtain ⟨gs, hset, hget⟩ := ih [] v h
                  refine ⟨setKey fs k (.arr (padWrite [] i (.obj gs))), ?_, ?_⟩
                  · simp [setParts, hp, hl, hset, truthy, List.getD]
                  · rw [getParts_cons_idx _ _ _ _ i (padWrite [] i (.obj gs)) hp
                        (propGet_setKey _ _ _), padWrite_getD]
                    exact hget
              case h_2 =>
                  rename_i c hne hl
                  have fresh : noConflictParts (Value.obj []) (r1 :: rest') = true →
                      ∃ gs, setParts (Value.obj fs) (part :: r1 :: rest') v
                          = some (Value.obj gs) ∧
                        getParts (Value.obj gs) (part :: r1 :: rest') = v := by
                    intro h'
                    obtain ⟨gs, hset, hget⟩ := ih [] v h'
                    refine ⟨setKey fs k (.arr (padWrite [] i (.obj gs))), ?_, ?_⟩
                    · cases c with
                      | arr es => exact absurd rfl (hne es)
                      | vnull => simp [setParts, hp, hl, truthy, hset, List.getD]
                      | vundef => simp [setParts, hp, hl, truthy, hset, List.getD]
                      | vbool b =>
                          cases b with
                          | true =>
                              rw [if_pos (by simp [truthy])] at h
                              simp at h
                          | false => simp [setParts, hp, hl, truthy, hset, List.getD]
                      | vnum n =>
                          have hn : n = 0 := by
                            by_contra hn
                            rw [if_pos (by simp [truthy, hn])] at h
                            simp at h
                          subst hn
                          simp [setParts, hp, hl, truthy, hset, List.getD]
                      | vstr s =>
                          have hs : s = "" := by
                            by_contra hs
                            rw [if_pos (by simp [truthy, hs])] at h
                            simp at h
                          subst hs
                          simp [setParts, hp, hl, truthy, hset, List.getD]
                      | obj gs0 =>
                          rw [if_pos (by simp [truthy])] at h
                          simp at h
                    · rw [getParts_cons_idx _ _ _ _ i (padWrite [] i (.obj gs)) hp
                          (propGet_setKey _ _ _), padWrite_getD]
                      exact hget
                  by_cases ht : truthy c = true
                  · rw [if_pos ht] at h; simp at h
                  · rw [if_neg ht] at h
                    exact fresh h

/-- C4: for every root object, value, and path whose segments only address
conflict-free existing values (`noConflictParts`: each addressed existing
value is falsy/absent — auto-vivified — or a plain object where a property
container is needed, an array where an `[N]` index container is needed),
`setNestedValue` succeeds, auto-creating missing intermediates, and
`getNestedValue` on the updated root returns exactly the written value. -/
theorem c4_set_get_roundtrip (root : Value) (path : String) (v : Value)
    (h : noConflictParts root (splitDot path) = true) :
    ∃ root', setNestedValue root path v = some root' ∧ getNestedValue root' path = v := by
  cases root with
  | obj fs =>
      obtain ⟨gs, hset, hget⟩ := setParts_get_roundtrip (splitDot path) fs v h
      exact ⟨.obj gs, hset, hget⟩
  | vnull => cases (splitDot path) <;> simp [noConflictParts] at h
  | vundef => cases (splitDot path) <;> simp [noConflictParts] at h
  | vbool b => cases (splitDot path) <;> simp [noConflictParts] at h
  | vnum n => cases (splitDot path) <;> simp [noConflictParts] at h
  | vstr s => cases (splitDot path) <;> simp [noConflictParts] at h
  | arr es => cases (splitDot path) <;> simp [noConflictParts] at h

/-- C4 witness: the round trip through the empty record along
`a.b[1].c`, auto-creating the object `a`, the array `b`, its hole at
index 0, and the object element at index 1. -/
theorem c4_set_get_roundtrip_witness :
    ∃ root', setNestedValue (.obj []) "a.b[1].c" (.vnum 7) = some root' ∧
      getNestedValue root' "a.b[1].c" = .vnum 7 :=
  c4_set_get_roundtrip (.obj []) "a.b[1].c" (.vnum 7) (by decide)

mutual

/-- Spec-side predicate for the no-op property: no property value anywhere
in the record — array elements included, since the extraction walk treats
them as indexed properties — is null, undefined, a blank string, an empty
array, or an empty object (nothing the source `isEmpty` accepts). -/
def allFieldsNonEmpty : Value → Bool
  | .obj fs => fieldsNonEmpty fs
  | .arr es => elemsNonEmpty es
  | _ => true

def fieldsNonEmpty : List (String × Value) → Bool
  | [] => true
  | (_, v) :: rest => !isEmpty v && allFieldsNonEmpty v && fieldsNonEmpty rest

def elemsNonEmpty : List Value → Bool
  | [] => true
  | v :: rest => !isEmpty v && allFieldsNonEmpty v && elemsNonEmpty rest

end

mutual

theorem extractFieldList_nil : ∀ (fs : List (String × Value)) (path : String)
    (pk : Option String), fieldsNonEmpty fs = true → extractFieldList fs path pk = []
  | [], _, _ => fun _ => rfl
  | (k, v) :: rest, path, pk => by
      intro h
      simp only [fieldsNonEmpty, Bool.and_eq_true, Bool.not_eq_true'] at h
      rw [extractFieldList, extractEntry_nil k v path pk ⟨h.1.1, h.1.2⟩,
        extractFieldList_nil rest path pk h.2]
      rfl

theorem extractIdxList_nil : ∀ (es : List Value) (i : Nat) (path : String)
    (pk : Option String), elemsNonEmpty es = true → extractIdxList es i path pk = []
  | [], _, _, _ => fun _ => rfl
  | v :: rest, i, path, pk => by
      intro h
      simp only [elemsNonEmpty, Bool.and_eq_true, Bool.not_eq_true'] at h
      rw [extractIdxList, extractEntry_nil (Nat.repr i) v path pk ⟨h.1.1, h.1.2⟩,
        extractIdxList_nil rest (i + 1) path pk h.2]
      rfl

theorem extractEntry_nil : ∀ (k : String) (v : Value) (path : String) (pk : Option String),
    (isEmpty v = false ∧ allFieldsNonEmpty v = true) → extractEntry k v path pk = []
  | k, v, path, pk => by
      intro ⟨he, ha⟩
      cases v with
      | vnull => simp [isEmpty, isNullish] at he
      | vundef => simp [isEmpty, isNullish] at he
      | vbool b => rfl
      | vnum n => rfl
      | vstr s =>
          have hs : (s == "") = false := by
            cases hq : s == "" with
            | true =>
                rw [beq_iff_eq] at hq
                subst hq
                simp [isEmpty, isNullish, jsTrim] at he
            | false => rfl
          simp [extractEntry, isNullV, isUndefV, hs]
      | obj fs =>
          rw [allFieldsNonEmpty] at ha
          simp [extractEntry, isNullV, isUndefV, extractFieldList_nil fs _ _ ha]
      | arr es =>
          rw [allFieldsNonEmpty] at ha
          have hne : es.isEmpty = false := by
            cases hq : es.isEmpty with
            | true => simp [isEmpty, isNullish, hq] at he
            | false => rfl
          simp [extractEntry, isNullV, isUndefV, hne, extractArrItems_nil es 0 _ _ ha]

theorem extractArrItems_nil : ∀ (es : List Value) (i : Nat) (cp key : String),
    elemsNonEmpty es = true → extractArrItems es i cp key = []
  | [], _, _, _ => fun _ => rfl
  | item :: rest, i, cp, key => by
      intro h
      simp only [elemsNonEmpty, Bool.and_eq_true, Bool.not_eq_true'] at h
      have ha := h.1.2
      have hrest := extractArrItems_nil rest (i + 1) cp key h.2
      cases item with
      | obj fs =>
          rw [allFieldsNonEmpty] at ha
          simp [extractArrItems, hrest, extractFieldList_nil fs _ _ ha]
      | arr es0 =>
          rw [allFieldsNonEmpty] at ha
          simp [extractArrItems, hrest, extractIdxList_nil es0 0 _ _ ha]
      | vnull => simp [extractArrItems, hrest]
      | vundef => simp [extractArrItems, hrest]
      | vbool b => simp [extractArrItems, hrest]
      | vnum n => simp [extractArrItems, hrest]
      | vstr s => simp [extractArrItems, hrest]

end

theorem extractEmptyFields_nil (v : Value) (h : allFieldsNonEmpty v = true)
    (path : String) (pk : Option String) : extractEmptyFields v path pk = [] := by
  cases v with
  | obj fs => exact extractFieldList_nil fs path pk h
  | arr es => exact extractIdxList_nil es 0 path pk h
  | vnull => rfl
  | vundef => rfl
  | vbool b => rfl
  | vnum n => rfl
  | vstr s => rfl

/-- C3: on a record in which no property value is null, undefined, a blank
string, an empty array, or an empty object, `fill` returns the (cloned)
record deep-equal to the input, with no `generateWithAI` step at all: no
cache lookup, no request to the external collaborator (`gen = none`).  The
pattern registry is not referenced anywhere in the `fill` pipeline, so it
is untouched a fortiori. -/
theorem c3_fill_noop_on_nonempty (pfx : String) (mr bd : Nat)
    (mov : List (String × OverrideVal)) (provider : Nat → AIResponse)
    (cacheGet : String → Option (List (String × Value))) (obj : Value) (opts : FillOptions)
    (h : allFieldsNonEmpty obj = true) :
    fill pfx mr bd mov provider cacheGet obj opts = ⟨.ok obj, none⟩ := by
  simp [fill, fillFields, deepClone_id, extractEmptyFields_nil obj h]

/-- C3 witness: a record with a number, a non-blank string, a `false`
boolean leaf, and a non-empty nested object passes through `fill`
unchanged with no collaborator or cache activity. -/
theorem c3_fill_noop_on_nonempty_witness :
    fill "sjm_" 3 1000 [] (fun _ => ⟨false, none, some "boom"⟩) (fun _ => none)
        (.obj [("a", .vnum 1), ("b", .vstr "x"), ("c", .obj [("d", .vbool false)])])
        ⟨false, false, false, []⟩
      = ⟨.ok (.obj [("a", .vnum 1), ("b", .vstr "x"), ("c", .obj [("d", .vbool false)])]),
          none⟩ :=
  c3_fill_noop_on_nonempty "sjm_" 3 1000 [] _ _ _ _ (by decide)

/-- C1 counterexample, refuting the short-circuit claim on the code: with
the mocker-wide/per-call override `{status: {enum: ["active","closed"]}}`
and the record `{status: null}`, `fill` still includes the `status`
descriptor in the request handed to the external collaborator, and the
output `status` is whatever the collaborator answers — here `"banana"`,
which is in neither enum candidate; `resolveOverride` is never consulted
by `fill`. -/
theorem c1_override_short_circuit_counterexample :
    (fill "sjm_" 3 1000 []
        (fun _ => ⟨true, some [("status", .vstr "banana")], none⟩) (fun _ => none)
        (.obj [("status", .vnull)])
        ⟨false, false, false,
          [("status", .config none none (some [.vstr "active", .vstr "closed"])
              none none none)]⟩).result
        = .ok (.obj [("status", .vstr "banana")]) ∧
    ((fill "sjm_" 3 1000 []
        (fun _ => ⟨true, some [("status", .vstr "banana")], none⟩) (fun _ => none)
        (.obj [("status", .vnull)])
        ⟨false, false, false,
          [("status", .config none none (some [.vstr "active", .vstr "closed"])
              none none none)]⟩).gen.bind GenTrace.fieldsSent).map
        (fun fs => fs.map FieldInfo.key) = some ["status"] :=
  ⟨rfl, rfl⟩

/-- C1 amended: `fill` does not short-circuit overridden fields.  On a
cache miss with at least one (filtered) missing field, the single batched
request to the external collaborator carries *every* filtered descriptor —
overridden keys included — together with the merged overrides
(mocker-wide spread under per-call), and the pattern registry plays no
part in `fill` at all. -/
theorem c1_fill_forwards_overridden_fields (pfx : String) (mr bd : Nat)
    (mov : List (String × OverrideVal)) (provider : Nat → AIResponse)
    (cacheGet : String → Option (List (String × Value))) (obj : Value) (opts : FillOptions)
    (hne : fillFields (deepClone obj) opts ≠ [])
    (hmiss : cacheGet (generateKey pfx (fillFields (deepClone obj) opts)) = none) :
    ∃ g, (fill pfx mr bd mov provider cacheGet obj opts).gen = some g ∧
      g.fieldsSent = some (fillFields (deepClone obj) opts) ∧
      g.overridesSent = some (spreadMerge mov opts.overrides) ∧
      g.cacheHit = false := by
  have hie : (fillFields (deepClone obj) opts).isEmpty = false := by
    cases hq : fillFields (deepClone obj) opts with
    | nil => exact absurd hq hne
    | cons a l => rfl
  refine ⟨generateWithAI pfx mr bd provider cacheGet (fillFields (deepClone obj) opts)
      (spreadMerge mov opts.overrides), ?_, ?_, ?_, ?_⟩
  · simp only [fill, hie, Bool.false_eq_true, if_false]
    split <;> first | rfl | (split <;> rfl)
  · simp [generateWithAI, hmiss]
  · simp [generateWithAI, hmiss]
  · simp [generateWithAI, hmiss]

/-- C1 witness: the amended forwarding theorem at the `{status: null}`
record with the enum override. -/
theorem c1_fill_forwards_overridden_fields_witness :
    ∃ g, (fill "sjm_" 3 1000 []
        (fun _ => ⟨true, some [("status", Value.vstr "active")], none⟩) (fun _ => none)
        (.obj [("status", .vnull)])
        ⟨false, false, false, [("status", .config none none
            (some [.vstr "active", .vstr "closed"]) none none none)]⟩).gen = some g ∧
      g.fieldsSent = some (fillFields (deepClone (.obj [("status", .vnull)]))
        ⟨false, false, false, [("status", .config none none
            (some [.vstr "active", .vstr "closed"]) none none none)]⟩) ∧
      g.overridesSent = some (spreadMerge []
        [("status", .config none none (some [.vstr "active", .vstr "closed"])
            none none none)]) ∧
      g.cacheHit = false :=
  c1_fill_forwards_overridden_fields "sjm_" 3 1000 [] _ _ _ _ (by decide) rfl

theorem retry_first_ok {α : Type} (f : Nat → α) (mr bd : Nat) (h : 1 ≤ mr) :
    retry (fun n => Except.ok (f n)) mr bd = ⟨.ok (f 0), 1, []⟩ := by
  cases mr with
  | zero => omega
  | succ m => simp [retry, retryAux]

/-- C2: when the external collaborator reports failure on every attempt
(`success: false`, which is also how its timeout and parse failures
surface, since `generateForFields` catches every exception), the
generation step is *not* retried: `GeminiProvider.generateForFields` never
rejects, so `retry` sees a resolved value on the first attempt and
returns; `fill` makes exactly one collaborator attempt, sleeps no backoff
delay, and surfaces the single error (the cloned record is discarded —
`fill`'s result carries the error, no partially filled record).  The last
conjunct shows the `retry` utility itself *does* implement bounded
attempts with exponential backoff for a step that throws — the behavior
the claim describes — so the retry configuration is dead only because the
provider never throws. -/
theorem c2_provider_failure_not_retried (pfx : String) (mr bd : Nat)
    (mov : List (String × OverrideVal)) (provider : Nat → AIResponse)
    (cacheGet : String → Option (List (String × Value))) (obj : Value) (opts : FillOptions)
    (hmr : 1 ≤ mr)
    (hfail : ∀ n, (provider n).success = false)
    (hne : fillFields (deepClone obj) opts ≠ [])
    (hmiss : cacheGet (generateKey pfx (fillFields (deepClone obj) opts)) = none) :
    (fill pfx mr bd mov provider cacheGet obj opts).result
        = .error "Failed to generate data with AI provider" ∧
    (∃ g, (fill pfx mr bd mov provider cacheGet obj opts).gen = some g ∧
      g.attemptsMade = 1 ∧ g.delays = []) ∧
    retry (fun _ => (Except.error "boom" : Except String (List (String × Value)))) 3 1000
        = ⟨.error "boom", 3, [1000, 2000]⟩ := by
  have hie : (fillFields (deepClone obj) opts).isEmpty = false := by
    cases hq : fillFields (deepClone obj) opts with
    | nil => exact absurd hq hne
    | cons a l => rfl
  have hret := retry_first_ok (fun n => provider n) mr bd hmr
  refine ⟨?_,
    ⟨generateWithAI pfx mr bd provider cacheGet (fillFields (deepClone obj) opts)
        (spreadMerge mov opts.overrides), ?_, ?_, ?_⟩, rfl⟩
  · simp [fill, hie, generateWithAI, hmiss, hret, hfail 0]
  · simp only [fill, hie, Bool.false_eq_true, if_false]
    split <;> first | rfl | (split <;> rfl)
  · simp [generateWithAI, hmiss, hret]
  · simp [generateWithAI, hmiss, hret]

/-- C2 witness: the single-attempt behavior at `{a: null}` with a
collaborator that always answers `{success: false}` and `maxRetries = 3`. -/
theorem c2_provider_failure_not_retried_witness :
    (fill "sjm_" 3 1000 [] (fun _ => ⟨false, none, some "boom"⟩) (fun _ => none)
        (.obj [("a", .vnull)]) ⟨false, false, false, []⟩).result
        = .error "Failed to generate data with AI provider" ∧
    (∃ g, (fill "sjm_" 3 1000 [] (fun _ => ⟨false, none, some "boom"⟩) (fun _ => none)
        (.obj [("a", .vnull)]) ⟨false, false, false, []⟩).gen = some g ∧
      g.attemptsMade = 1 ∧ g.delays = []) ∧
    retry (fun _ => (Except.error "boom" : Except String (List (String × Value)))) 3 1000
        = ⟨.error "boom", 3, [1000, 2000]⟩ :=
  c2_provider_failure_not_retried "sjm_" 3 1000 [] _ _ _ _ (by decide) (fun _ => rfl)
    (by decide) rfl

def refBelowB (n : Nat) : HVal → Bool
  | .prim _ => true
  | .ref a => a < n

def objRefsBelowB (n : Nat) : HObj → Bool
  | .hobj fs => fs.all (fun p => refBelowB n p.2)
  | .harr es => es.all (refBelowB n)

/-- Decidable well-formedness of a store: every entry lives below the
allocation counter and references only addresses below it. -/
def storeWFB (st : Store) : Bool :=
  st.heap.all (fun p => decide (p.1 < st.next) && objRefsBelowB st.next p.2)

theorem lookup_mem {α β : Type} [BEq α] [LawfulBEq α] :
    ∀ (l : List (α × β)) (a : α) (b : β), List.lookup a l = some b → (a, b) ∈ l := by
  intro l
  induction l with
  | nil => intro a b h; simp [List.lookup] at h
  | cons hd tl ih =>
      intro a b h
      obtain ⟨k, v⟩ := hd
      rw [List.lookup] at h
      cases hq : (a == k) with
      | true =>
          rw [hq] at h
          injection h with h
          subst h
          rw [eq_of_beq hq]
          exact List.mem_cons_self _ _
      | false =>
          rw [hq] at h
          exact List.mem_cons_of_mem _ (ih a b h)

theorem storeWFB_domBelow (st : Store) (h : storeWFB st = true) : domBelow st := by
  intro p hp
  have := (List.all_eq_true.mp h) p hp
  simp at this
  exact this.1

theorem refBelowB_refBelow (n : Nat) (v : HVal) (h : refBelowB n v = true) : refBelow n v := by
  cases v with
  | prim p => trivial
  | ref a => simpa [refBelowB, refBelow] using h

theorem storeWFB_loClosed (st : Store) (h : storeWFB st = true) : loClosed st st.next := by
  intro a o _ hl
  have hmem := lookup_mem st.heap a o hl
  have hall := (List.all_eq_true.mp h) (a, o) hmem
  simp at hall
  cases o with
  | hobj fs =>
      intro p hp
      have := (List.all_eq_true.mp hall.2) p hp
      exact refBelowB_refBelow _ _ this
  | harr es =>
      intro v hv
      have := (List.all_eq_true.mp hall.2) v hv
      exact refBelowB_refBelow _ _ this

theorem lookupH_of_some_lt (st : Store) (a : Nat) (o : HObj) (hdom : domBelow st)
    (h : lookupH st a = some o) : a < st.next :=
  hdom (a, o) (lookup_mem st.heap a o h)

theorem lookup_append_sing {β : Type} :
    ∀ (l : List (Nat × β)) (a n : Nat) (o : β), a ≠ n →
      List.lookup a (l ++ [(n, o)]) = List.lookup a l := by
  intro l
  induction l with
  | nil =>
      intro a n o h
      simp [List.lookup, beq_eq_false_iff_ne.mpr h]
  | cons hd tl ih =>
      intro a n o h
      obtain ⟨k, v⟩ := hd
      rw [List.cons_append, List.lookup, List.lookup]
      cases a == k with
      | true => rfl
      | false => exact ih a n o h

theorem lookup_append_sing_self {β : Type} :
    ∀ (l : List (Nat × β)) (n : Nat) (o : β), (∀ p ∈ l, p.1 ≠ n) →
      List.lookup n (l ++ [(n, o)]) = some o := by
  intro l
  induction l with
  | nil => intro n o _; simp [List.lookup]
  | cons hd tl ih =>
      intro n o h
      obtain ⟨k, v⟩ := hd
      rw [List.cons_append, List.lookup]
      have hk : k ≠ n := h (k, v) (List.mem_cons_self _ _)
      rw [show (n == k) = false from beq_eq_false_iff_ne.mpr (Ne.symm hk)]
      exact ih n o (fun p hp => h p (List.mem_cons_of_mem _ hp))

theorem lookupH_alloc_ne (st : Store) (o : HObj) (a : Nat) (h : a ≠ st.next) :
    lookupH (allocH st o).1 a = lookupH st a :=
  lookup_append_sing st.heap a st.next o h

theorem lookupH_alloc_self (st : Store) (o : HObj) (hdom : domBelow st) :
    lookupH (allocH st o).1 st.next = some o :=
  lookup_append_sing_self st.heap st.next o (fun p hp => Nat.ne_of_lt (hdom p hp))

theorem lookup_map_update {β : Type} :
    ∀ (l : List (Nat × β)) (b : Nat) (o : β) (a : Nat),
      List.lookup a (l.map (fun p => if p.1 = b then (b, o) else p))
        = if a = b then (List.lookup b l).map (fun _ => o) else List.lookup a l := by
  intro l b o
  induction l with
  | nil => intro a; by_cases hab : a = b <;> simp [List.lookup, hab]
  | cons hd tl ih =>
      intro a
      obtain ⟨k, v⟩ := hd
      by_cases hk : k = b <;> by_cases hab : a = b
      · subst hk; subst hab
        simp only [List.map_cons, if_pos rfl]
        simp [List.lookup, ih]
      · subst hk
        have hne : (a == k) = false := beq_eq_false_iff_ne.mpr hab
        simp only [List.map_cons, if_pos rfl]
        simp [List.lookup, hne, ih, hab]
      · subst hab
        have hne : (a == k) = false := beq_eq_false_iff_ne.mpr (fun h => hk h.symm)
        simp only [List.map_cons, if_neg hk]
        simp [List.lookup, hne, ih, hk]
      · simp only [List.map_cons, if_neg hk]
        by_cases hak : a = k
        · subst hak
          simp [List.lookup, hk, hab]
        · have hne : (a == k) = false := beq_eq_false_iff_ne.mpr hak
          simp [List.lookup, hne, hk, hab, ih]

theorem lookupH_update (st : Store) (b : Nat) (o : HObj) (a : Nat) :
    lookupH (updateH st b o) a
      = if a = b then (lookupH st b).map (fun _ => o) else lookupH st a :=
  lookup_map_update st.heap b o a

/-- The invariant carried through cloning and merging: the allocation
counter never went below `n`, the store is well-domained, high addresses
only reference high addresses, and nothing below `n` changed relative to
the caller's original store. -/
def FrameOK (st : Store) (n : Nat) (base : Store) : Prop :=
  n ≤ st.next ∧ domBelow st ∧ hiClosed st n ∧ agreesBelow st base n

theorem frameOK_alloc (st : Store) (o : HObj) (n : Nat) (base : Store)
    (h : FrameOK st n base) (ho : objRefsAtLeast n o) : FrameOK (allocH st o).1 n base := by
  obtain ⟨hn, hdom, hhi, hag⟩ := h
  refine ⟨by simp [allocH]; omega, ?_, ?_, ?_⟩
  · intro p hp
    simp only [allocH] at hp ⊢
    rcases List.mem_append.mp hp with h' | h'
    · exact Nat.lt_succ_of_lt (hdom p h')
    · simp at h'
      subst h'
      exact Nat.lt_succ_self _
  · intro a o' ha hl
    by_cases hne : a = st.next
    · subst hne
      rw [lookupH_alloc_self st o hdom] at hl
      injection hl with hl
      subst hl
      exact ho
    · rw [lookupH_alloc_ne st o a hne] at hl
      exact hhi a o' ha hl
  · intro a ha
    rw [lookupH_alloc_ne st o a (by omega)]
    exact hag a ha

theorem frameOK_update (st : Store) (b : Nat) (o : HObj) (n : Nat) (base : Store)
    (h : FrameOK st n base) (hb : n ≤ b) (ho : objRefsAtLeast n o) :
    FrameOK (updateH st b o) n base := by
  obtain ⟨hn, hdom, hhi, hag⟩ := h
  refine ⟨hn, ?_, ?_, ?_⟩
  · intro p hp
    simp only [updateH] at hp
    rcases List.mem_map.mp hp with ⟨q, hq, hqe⟩
    have : p.1 = q.1 := by
      by_cases hq1 : q.1 = b <;> simp [hq1] at hqe <;> simp [← hqe, hq1]
    rw [show (updateH st b o).next = st.next from rfl, this]
    exact hdom q hq
  · intro a o' ha hl
    rw [lookupH_update] at hl
    by_cases hab : a = b
    · rw [if_pos hab] at hl
      rcases hx : lookupH st b with _ | x
      · rw [hx] at hl; simp at hl
      · rw [hx] at hl
        simp at hl
        subst hl
        exact ho
    · rw [if_neg hab] at hl
      exact hhi a o' ha hl
  · intro a ha
    rw [lookupH_update, if_neg (by omega)]
    exact hag a ha

theorem getD_mem_of_lt' {α : Type} (l : List α) (d : α) (i : Nat) (h : i < l.length) :
    l.getD i d ∈ l := by
  rw [List.getD_eq_getElem?_getD, List.getElem?_eq_getElem h]
  exact List.getElem_mem h

theorem setKeyH_refs (n : Nat) : ∀ (fs : List (String × HVal)) (k : String) (v : HVal),
    (∀ p ∈ fs, refAtLeast n p.2) → refAtLeast n v → ∀ p ∈ setKeyH fs k v, refAtLeast n p.2 := by
  intro fs
  induction fs with
  | nil =>
      intro k v _ hv p hp
      simp [setKeyH] at hp
      subst hp
      exact hv
  | cons hd tl ih =>
      intro k v hfs hv p hp
      obtain ⟨k', v'⟩ := hd
      rw [setKeyH] at hp
      by_cases hk : k' = k
      · rw [if_pos hk] at hp
        rcases List.mem_cons.mp hp with h' | h'
        · subst h'; exact hv
        · exact hfs p (List.mem_cons_of_mem _ h')
      · rw [if_neg hk] at hp
        rcases List.mem_cons.mp hp with h' | h'
        · subst h'; exact hfs (k', v') (List.mem_cons_self _ _)
        · exact ih k v (fun q hq => hfs q (List.mem_cons_of_mem _ hq)) hv p h'

theorem padWriteH_refs (n : Nat) (es : List HVal) (i : Nat) (v : HVal)
    (hes : ∀ x ∈ es, refAtLeast n x) (hv : refAtLeast n v) :
    ∀ x ∈ padWriteH es i v, refAtLeast n x := by
  intro x hx
  unfold padWriteH at hx
  rcases List.mem_or_eq_of_mem_set hx with h' | h'
  · rcases List.mem_append.mp h' with h'' | h''
    · exact hes x h''
    · rw [List.eq_of_mem_replicate h'']
      trivial
  · subst h'
    exact hv

theorem getD_refAtLeast (n : Nat) (es : List HVal) (i : Nat)
    (hes : ∀ x ∈ es, refAtLeast n x) : refAtLeast n (es.getD i (.prim .jundef)) := by
  by_cases h : i < es.length
  · exact hes _ (getD_mem_of_lt' es _ i h)
  · rw [List.getD_eq_default es _ (by omega)]
    trivial

theorem hiClosed_hobj (st : Store) (n a : Nat) (fs : List (String × HVal))
    (hhi : hiClosed st n) (ha : n ≤ a) (hl : lookupH st a = some (.hobj fs)) :
    ∀ p ∈ fs, refAtLeast n p.2 :=
  hhi a _ ha hl

theorem hiClosed_harr (st : Store) (n a : Nat) (es : List HVal)
    (hhi : hiClosed st n) (ha : n ≤ a) (hl : lookupH st a = some (.harr es)) :
    ∀ x ∈ es, refAtLeast n x :=
  hhi a _ ha hl

mutual

theorem deepCloneH_spec : ∀ (fuel : Nat) (st : Store) (v : HVal) (st' : Store) (v' : HVal),
    deepCloneH fuel st v = some (st', v') → ∀ (n : Nat) (base : Store), FrameOK st n base →
    FrameOK st' n base ∧ st.next ≤ st'.next ∧ refAtLeast n v'
  | 0, st, v => by intro st' v' h; simp [deepCloneH] at h
  | fuel + 1, st, .prim p => by
      intro st' v' h n base hf
      simp [deepCloneH] at h
      obtain ⟨h1, h2⟩ := h
      subst h1; subst h2
      exact ⟨hf, Nat.le_refl _, trivial⟩
  | fuel + 1, st, .ref a => by
      intro st' v' h n base hf
      rw [deepCloneH] at h
      rcases hl : lookupH st a with _ | o
      · rw [hl] at h; simp at h
      · rw [hl] at h
        cases o with
        | hobj fs =>
            dsimp only at h
            rcases hc : cloneFieldsH fuel st fs with _ | r
            · rw [hc] at h; simp at h
            · obtain ⟨st1, fs'⟩ := r
              rw [hc] at h
              simp at h
              obtain ⟨hrec, hmono, hrefs⟩ := cloneFieldsH_spec fuel st fs st1 fs' hc n base hf
              obtain ⟨h1, h2⟩ := h
              subst h1; subst h2
              refine ⟨frameOK_alloc st1 _ n base hrec hrefs, ?_, hrec.1⟩
              simp [allocH]
              omega
        | harr es =>
            dsimp only at h
            rcases hc : cloneElemsH fuel st es with _ | r
            · rw [hc] at h; simp at h
            · obtain ⟨st1, es'⟩ := r
              rw [hc] at h
              simp at h
              obtain ⟨hrec, hmono, hrefs⟩ := cloneElemsH_spec fuel st es st1 es' hc n base hf
              obtain ⟨h1, h2⟩ := h
              subst h1; subst h2
              refine ⟨frameOK_alloc st1 _ n base hrec hrefs, ?_, hrec.1⟩
              simp [allocH]
              omega

theorem cloneFieldsH_spec : ∀ (fuel : Nat) (st : Store) (fs : List (String × HVal))
    (st' : Store) (fs' : List (String × HVal)), cloneFieldsH fuel st fs = some (st', fs') →
    ∀ (n : Nat) (base : Store), FrameOK st n base →
    FrameOK st' n base ∧ st.next ≤ st'.next ∧ ∀ p ∈ fs', refAtLeast n p.2
  | 0, st, fs => by intro st' fs' h; simp [cloneFieldsH] at h
  | fuel + 1, st, [] => by
      intro st' fs' h n base hf
      simp [cloneFieldsH] at h
      obtain ⟨h1, h2⟩ := h
      subst h1; subst h2
      exact ⟨hf, Nat.le_refl _, by simp⟩
  | fuel + 1, st, (k, v) :: rest => by
      intro st' fs' h n base hf
      rw [cloneFieldsH] at h
      rcases hc1 : deepCloneH fuel st v with _ | r1
      · rw [hc1] at h; simp at h
      · obtain ⟨st1, v1⟩ := r1
        rw [hc1] at h
        dsimp only at h
        rcases hc2 : cloneFieldsH fuel st1 rest with _ | r2
        · rw [hc2] at h; simp at h
        · obtain ⟨st2, rest'⟩ := r2
          rw [hc2] at h
          simp at h
          obtain ⟨ha1, hm1, hr1⟩ := deepCloneH_spec fuel st v st1 v1 hc1 n base hf
          obtain ⟨ha2, hm2, hr2⟩ := cloneFieldsH_spec fuel st1 rest st2 rest' hc2 n base ha1
          obtain ⟨h1, h2⟩ := h
          subst h1; subst h2
          refine ⟨ha2, Nat.le_trans hm1 hm2, ?_⟩
          intro p hp
          rcases List.mem_cons.mp hp with h' | h'
          · subst h'; exact hr1
          · exact hr2 p h'

theorem cloneElemsH_spec : ∀ (fuel : Nat) (st : Store) (es : List HVal)
    (st' : Store) (es' : List HVal), cloneElemsH fuel st es = some (st', es') →
    ∀ (n : Nat) (base : Store), FrameOK st n base →
    FrameOK st' n base ∧ st.next ≤ st'.next ∧ ∀ x ∈ es', refAtLeast n x
  | 0, st, es => by intro st' es' h; simp [cloneElemsH] at h
  | fuel + 1, st, [] => by
      intro st' es' h n base hf
      simp [cloneElemsH] at h
      obtain ⟨h1, h2⟩ := h
      subst h1; subst h2
      exact ⟨hf, Nat.le_refl _, by simp⟩
  | fuel + 1, st, v :: rest => by
      intro st' es' h n base hf
      rw [cloneElemsH] at h
      rcases hc1 : deepCloneH fuel st v with _ | r1
      · rw [hc1] at h; simp at h
      · obtain ⟨st1, v1⟩ := r1
        rw [hc1] at h
        dsimp only at h
        rcases hc2 : cloneElemsH fuel st1 rest with _ | r2
        · rw [hc2] at h; simp at h
        · obtain ⟨st2, rest'⟩ := r2
          rw [hc2] at h
          simp at h
          obtain ⟨ha1, hm1, hr1⟩ := deepCloneH_spec fuel st v st1 v1 hc1 n base hf
          obtain ⟨ha2, hm2, hr2⟩ := cloneElemsH_spec fuel st1 rest st2 rest' hc2 n base ha1
          obtain ⟨h1, h2⟩ := h
          subst h1; subst h2
          refine ⟨ha2, Nat.le_trans hm1 hm2, ?_⟩
          intro x hx
          rcases List.mem_cons.mp hx with h' | h'
          · subst h'; exact hr1
          · exact hr2 x h'

end

mutual

theorem injectVal_spec : ∀ (st : Store) (v : Value) (n : Nat) (base : Store),
    FrameOK st n base → FrameOK (injectVal st v).1 n base ∧
      st.next ≤ (injectVal st v).1.next ∧ refAtLeast n (injectVal st v).2
  | st, .vnull, n, base => fun hf => ⟨hf, Nat.le_refl _, trivial⟩
  | st, .vundef, n, base => fun hf => ⟨hf, Nat.le_refl _, trivial⟩
  | st, .vbool b, n, base => fun hf => ⟨hf, Nat.le_refl _, trivial⟩
  | st, .vnum m, n, base => fun hf => ⟨hf, Nat.le_refl _, trivial⟩
  | st, .vstr s, n, base => fun hf => ⟨hf, Nat.le_refl _, trivial⟩
  | st, .arr es, n, base => by
      intro hf
      obtain ⟨hf1, hm1, hrefs⟩ := injectElems_spec st es n base hf
      simp only [injectVal]
      refine ⟨frameOK_alloc _ _ n base hf1 hrefs, ?_, hf1.1⟩
      simp [allocH]
      omega
  | st, .obj fs, n, base => by
      intro hf
      obtain ⟨hf1, hm1, hrefs⟩ := injectFields_spec st fs n base hf
      simp only [injectVal]
      refine ⟨frameOK_alloc _ _ n base hf1 hrefs, ?_, hf1.1⟩
      simp [allocH]
      omega

theorem injectElems_spec : ∀ (st : Store) (es : List Value) (n : Nat) (base : Store),
    FrameOK st n base → FrameOK (injectElems st es).1 n base ∧
      st.next ≤ (injectElems st es).1.next ∧ ∀ x ∈ (injectElems st es).2, refAtLeast n x
  | st, [], n, base => fun hf => ⟨hf, Nat.le_refl _, by simp [injectElems]⟩
  | st, v :: rest, n, base => by
      intro hf
      obtain ⟨hf1, hm1, hr1⟩ := injectVal_spec st v n base hf
      obtain ⟨hf2, hm2, hr2⟩ := injectElems_spec (injectVal st v).1 rest n base hf1
      simp only [injectElems]
      refine ⟨hf2, Nat.le_trans hm1 hm2, ?_⟩
      intro x hx
      rcases List.mem_cons.mp hx with h' | h'
      · subst h'; exact hr1
      · exact hr2 x h'

theorem injectFields_spec : ∀ (st : Store) (fs : List (String × Value)) (n : Nat)
    (base : Store), FrameOK st n base → FrameOK (injectFields st fs).1 n base ∧
      st.next ≤ (injectFields st fs).1.next ∧ ∀ p ∈ (injectFields st fs).2, refAtLeast n p.2
  | st, [], n, base => fun hf => ⟨hf, Nat.le_refl _, by simp [injectFields]⟩
  | st, (k, v) :: rest, n, base => by
      intro hf
      obtain ⟨hf1, hm1, hr1⟩ := injectVal_spec st v n base hf
      obtain ⟨hf2, hm2, hr2⟩ := injectFields_spec (injectVal st v).1 rest n base hf1
      simp only [injectFields]
      refine ⟨hf2, Nat.le_trans hm1 hm2, ?_⟩
      intro p hp
      rcases List.mem_cons.mp hp with h' | h'
      · subst h'; exact hr1
      · exact hr2 p h'

end

theorem setSegsH_spec : ∀ (parts : List String) (st : Store) (current : Nat) (v : HVal)
    (st' : Store), setSegsH st current parts v = some st' →
    ∀ (n : Nat) (base : Store), FrameOK st n base → n ≤ current → refAtLeast n v →
    FrameOK st' n base := by
  intro parts
  induction parts with
  | nil => intro st current v st' h; simp [setSegsH] at h
  | cons part rest ih =>
      intro st current v st' h n base hf hcur hv
      cases rest with
      | nil =>
          rw [setSegsH] at h
          rcases hco : lookupH st current with _ | o
          · rw [hco] at h; simp at h
          · rw [hco] at h
            cases o with
            | harr es => simp at h
            | hobj fs =>
                dsimp only at h
                have hfs : ∀ p ∈ fs, refAtLeast n p.2 :=
                  hiClosed_hobj st n current fs hf.2.2.1 hcur hco
                rcases hp : parseSeg part with ⟨k, idx⟩
                rw [hp] at h
                cases idx with
                | none =>
                    dsimp only at h
                    injection h with h
                    subst h
                    exact frameOK_update st current _ n base hf hcur
                      (setKeyH_refs n fs part v hfs hv)
                | some i =>
                    dsimp only at h
                    rcases hlk : List.lookup k fs with _ | pv
                    · rw [hlk] at h
                      dsimp only at h
                      injection h with h
                      subst h
                      have hfr : FrameOK (allocH st (.harr (padWriteH [] i v))).1 n base :=
                        frameOK_alloc st _ n base hf
                          (padWriteH_refs n [] i v (by simp) hv)
                      refine frameOK_update _ current _ n base hfr hcur
                        (setKeyH_refs n fs k _ hfs ?_)
                      exact hf.1
                    · rw [hlk] at h
                      cases pv with
                      | ref c =>
                          dsimp only at h
                          rcases hcc : lookupH st c with _ | oc
                          · rw [hcc] at h; simp at h
                          · rw [hcc] at h
                            cases oc with
                            | hobj fs2 => simp at h
                            | harr es =>
                                dsimp only at h
                                injection h with h
                                subst h
                                have hc : n ≤ c := hfs (k, .ref c) (lookup_mem fs k _ hlk)
                                have hes : ∀ x ∈ es, refAtLeast n x :=
                                  hiClosed_harr st n c es hf.2.2.1 hc hcc
                                exact frameOK_update st c _ n base hf hc
                                  (padWriteH_refs n es i v hes hv)
                      | prim pv =>
                          dsimp only at h
                          by_cases ht : truthyH (.prim pv) = true
                          · rw [if_pos ht] at h; simp at h
                          · rw [if_neg ht] at h
                            injection h with h
                            subst h
                            have hfr : FrameOK (allocH st (.harr (padWriteH [] i v))).1 n base :=
                              frameOK_alloc st _ n base hf
                                (padWriteH_refs n [] i v (by simp) hv)
                            refine frameOK_update _ current _ n base hfr hcur
                              (setKeyH_refs n fs k _ hfs ?_)
                            exact hf.1
      | cons r1 rest' =>
          rw [setSegsH] at h
          rcases hco : lookupH st current with _ | o
          · rw [hco] at h; simp at h
          · rw [hco] at h
            cases o with
            | harr es => simp at h
            | hobj fs =>
                dsimp only at h
                have hfs : ∀ p ∈ fs, refAtLeast n p.2 :=
                  hiClosed_hobj st n current fs hf.2.2.1 hcur hco
                rcases hp : parseSeg part with ⟨k, idx⟩
                rw [hp] at h
                cases idx with
                | none =>
                    dsimp only at h
                    rcases hlk : List.lookup k fs with _ | pv
                    · rw [hlk] at h
                      dsimp only at h
                      have hfr1 : FrameOK (allocH st (.hobj [])).1 n base :=
                        frameOK_alloc st _ n base hf (by intro p hp'; simp at hp')
                      have hfr2 : FrameOK (updateH (allocH st (.hobj [])).1 current
                          (.hobj (setKeyH fs k (.ref (allocH st (.hobj [])).2)))) n base :=
                        frameOK_update _ current _ n base hfr1 hcur
                          (setKeyH_refs n fs k _ hfs hf.1)
                      exact ih _ _ v st' h n base hfr2 hf.1 hv
                    · rw [hlk] at h
                      cases pv with
                      | ref c =>
                          dsimp only at h
                          rcases hcc : lookupH st c with _ | oc
                          · rw [hcc] at h; simp at h
                          · rw [hcc] at h
                            cases oc with
                            | harr es2 => simp at h
                            | hobj fs2 =>
                                dsimp only at h
                                have hc : n ≤ c := hfs (k, .ref c) (lookup_mem fs k _ hlk)
                                exact ih _ _ v st' h n base hf hc hv
                      | prim pv =>
                          dsimp only at h
                          by_cases ht : truthyH (.prim pv) = true
                          · rw [if_pos ht] at h; simp at h
                          · rw [if_neg ht] at h
                            have hfr1 : FrameOK (allocH st (.hobj [])).1 n base :=
                              frameOK_alloc st _ n base hf (by intro p hp'; simp at hp')
                            have hfr2 : FrameOK (updateH (allocH st (.hobj [])).1 current
                                (.hobj (setKeyH fs k (.ref (allocH st (.hobj [])).2)))) n base :=
                              frameOK_update _ current _ n base hfr1 hcur
                                (setKeyH_refs n fs k _ hfs hf.1)
                            exact ih _ _ v st' h n base hfr2 hf.1 hv
                | some i =>
                    dsimp only at h
                    rcases hlk : List.lookup k fs with _ | pv
                    · -- absent container: fresh array, fresh element object
                      rw [hlk] at h
                      dsimp only at h
                      simp only [List.getD_eq_getElem?_getD, List.getElem?_nil,
                        Option.getD_none, truthyH, Bool.false_eq_true, if_false] at h
                      have hfr1 : FrameOK (allocH st (HObj.harr [])).1 n base :=
                        frameOK_alloc st _ n base hf (by intro q hq; simp at hq)
                      have hfr2 : FrameOK (updateH (allocH st (HObj.harr [])).1 current (HObj.hobj (setKeyH fs k (HVal.ref (allocH st (HObj.harr [])).2)))) n base :=
                        frameOK_update _ current _ n base hfr1 hcur
                          (setKeyH_refs n fs k (HVal.ref (allocH st (HObj.harr [])).2) hfs hf.1)
                      have hfr3 : FrameOK (allocH (updateH (allocH st (HObj.harr [])).1 current (HObj.hobj (setKeyH fs k (HVal.ref (allocH st (HObj.harr [])).2)))) (HObj.hobj [])).1 n base :=
                        frameOK_alloc _ _ n base hfr2 (by intro q hq; simp at hq)
                      have hfr4 : FrameOK (updateH (allocH (updateH (allocH st (HObj.harr [])).1 current (HObj.hobj (setKeyH fs k (HVal.ref (allocH st (HObj.harr [])).2)))) (HObj.hobj [])).1 (allocH st (HObj.harr [])).2 (HObj.harr (padWriteH [] i (HVal.ref (allocH (updateH (allocH st (HObj.harr [])).1 current (HObj.hobj (setKeyH fs k (HVal.ref (allocH st (HObj.harr [])).2)))) (HObj.hobj [])).2)))) n base :=
                        frameOK_update _ _ _ n base hfr3 hf.1
                          (padWriteH_refs n [] i (HVal.ref (allocH (updateH (allocH st (HObj.harr [])).1 current (HObj.hobj (setKeyH fs k (HVal.ref (allocH st (HObj.harr [])).2)))) (HObj.hobj [])).2) (by simp) hfr2.1)
                      exact ih _ _ v st' h n base hfr4 hfr2.1 hv
                    · rw [hlk] at h
                      cases pv with
                      | ref c =>
                          dsimp only at h
                          rcases hcc : lookupH st c with _ | oc
                          · rw [hcc] at h; simp at h
                          · rw [hcc] at h
                            cases oc with
                            | hobj fs2 => simp at h
                            | harr es =>
                                dsimp only at h
                                have hc : n ≤ c := hfs (k, .ref c) (lookup_mem fs k _ hlk)
                                have hesr : ∀ x ∈ es, refAtLeast n x :=
                                  hiClosed_harr st n c es hf.2.2.1 hc hcc
                                rcases hel : es.getD i (.prim .jundef) with p | e
                                · rw [hel] at h
                                  dsimp only at h
                                  by_cases ht : truthyH (.prim p) = true
                                  · rw [if_pos ht] at h; simp at h
                                  · rw [if_neg ht] at h
                                    refine ih _ _ v st' h n base ?_ ?_ hv
                                    · refine frameOK_update _ c _ n base ?_ hc ?_
                                      · exact frameOK_alloc st _ n base hf
                                          (by intro q hq; simp at hq)
                                      · refine padWriteH_refs n es i _ hesr ?_
                                        exact hf.1
                                    · exact hf.1
                                · rw [hel] at h
                                  dsimp only at h
                                  rcases hce : lookupH st e with _ | oe
                                  · rw [hce] at h; simp at h
                                  · rw [hce] at h
                                    cases oe with
                                    | harr es2 => simp at h
                                    | hobj fs2 =>
                                        dsimp only at h
                                        have he : n ≤ e := by
                                          have hr := getD_refAtLeast n es i hesr
                                          rw [hel] at hr
                                          exact hr
                                        exact ih _ _ v st' h n base hf he hv
                      | prim pv =>
                          dsimp only at h
                          by_cases ht : truthyH (.prim pv) = true
                          · rw [if_pos ht] at h; simp at h
                          · rw [if_neg ht] at h
                            dsimp only at h
                            simp only [List.getD_eq_getElem?_getD, List.getElem?_nil,
                              Option.getD_none, truthyH, Bool.false_eq_true, if_false] at h
                            have hfr1 : FrameOK (allocH st (HObj.harr [])).1 n base :=
                              frameOK_alloc st _ n base hf (by intro q hq; simp at hq)
                            have hfr2 : FrameOK (updateH (allocH st (HObj.harr [])).1 current (HObj.hobj (setKeyH fs k (HVal.ref (allocH st (HObj.harr [])).2)))) n base :=
                              frameOK_update _ current _ n base hfr1 hcur
                                (setKeyH_refs n fs k (HVal.ref (allocH st (HObj.harr [])).2) hfs hf.1)
                            have hfr3 : FrameOK (allocH (updateH (allocH st (HObj.harr [])).1 current (HObj.hobj (setKeyH fs k (HVal.ref (allocH st (HObj.harr [])).2)))) (HObj.hobj [])).1 n base :=
                              frameOK_alloc _ _ n base hfr2 (by intro q hq; simp at hq)
                            have hfr4 : FrameOK (updateH (allocH (updateH (allocH st (HObj.harr [])).1 current (HObj.hobj (setKeyH fs k (HVal.ref (allocH st (HObj.harr [])).2)))) (HObj.hobj [])).1 (allocH st (HObj.harr [])).2 (HObj.harr (padWriteH [] i (HVal.ref (allocH (updateH (allocH st (HObj.harr [])).1 current (HObj.hobj (setKeyH fs k (HVal.ref (allocH st (HObj.harr [])).2)))) (HObj.hobj [])).2)))) n base :=
                              frameOK_update _ _ _ n base hfr3 hf.1
                                (padWriteH_refs n [] i (HVal.ref (allocH (updateH (allocH st (HObj.harr [])).1 current (HObj.hobj (setKeyH fs k (HVal.ref (allocH st (HObj.harr [])).2)))) (HObj.hobj [])).2) (by simp) hfr2.1)
                            exact ih _ _ v st' h n base hfr4 hfr2.1 hv

theorem heapMergeData_spec : ∀ (data : List (String × Value)) (st : Store) (root : Nat)
    (st' : Store), heapMergeData st root data = some st' →
    ∀ (n : Nat) (base : Store), FrameOK st n base → n ≤ root → FrameOK st' n base := by
  intro data
  induction data with
  | nil =>
      intro st root st' h n base hf _
      simp [heapMergeData] at h
      subst h
      exact hf
  | cons pv rest ih =>
      intro st root st' h n base hf hroot
      obtain ⟨p, val⟩ := pv
      rw [heapMergeData] at h
      obtain ⟨hf1, hm1, hr1⟩ := injectVal_spec st val n base hf
      rcases hs : setNestedValueH (injectVal st val).1 root p (injectVal st val).2 with _ | st2
      · rw [hs] at h; simp at h
      · rw [hs] at h
        dsimp only at h
        simp only [setNestedValueH] at hs
        exact ih st2 root st' h n base
          (setSegsH_spec (splitDot p) _ root _ st2 hs n base hf1 hroot hr1) hroot

mutual

theorem materializeH_agree : ∀ (fuel : Nat) (st' st : Store) (n : Nat) (v : HVal),
    agreesBelow st' st n → loClosed st n → refBelow n v →
    materializeH fuel st' v = materializeH fuel st v
  | 0, st', st, n, v => fun _ _ _ => rfl
  | fuel + 1, st', st, n, .prim p => fun _ _ _ => rfl
  | fuel + 1, st', st, n, .ref a => by
      intro hag hlo hv
      have ha : a < n := hv
      rw [materializeH, materializeH, hag a ha]
      rcases hl : lookupH st a with _ | o
      · rfl
      · cases o with
        | hobj fs =>
            have hfs : ∀ p ∈ fs, refBelow n p.2 := hlo a _ ha hl
            dsimp only
            rw [matFieldsH_agree fuel st' st n fs hag hlo hfs]
        | harr es =>
            have hes : ∀ x ∈ es, refBelow n x := hlo a _ ha hl
            dsimp only
            rw [matElemsH_agree fuel st' st n es hag hlo hes]

theorem matFieldsH_agree : ∀ (fuel : Nat) (st' st : Store) (n : Nat)
    (fs : List (String × HVal)), agreesBelow st' st n → loClosed st n →
    (∀ p ∈ fs, refBelow n p.2) → matFieldsH fuel st' fs = matFieldsH fuel st fs
  | 0, st', st, n, fs => fun _ _ _ => rfl
  | fuel + 1, st', st, n, [] => fun _ _ _ => rfl
  | fuel + 1, st', st, n, (k, v) :: rest => by
      intro hag hlo hfs
      rw [matFieldsH, matFieldsH,
        materializeH_agree fuel st' st n v hag hlo (hfs (k, v) (List.mem_cons_self _ _)),
        matFieldsH_agree fuel st' st n rest hag hlo
          (fun q hq => hfs q (List.mem_cons_of_mem _ hq))]

theorem matElemsH_agree : ∀ (fuel : Nat) (st' st : Store) (n : Nat) (es : List HVal),
    agreesBelow st' st n → loClosed st n → (∀ x ∈ es, refBelow n x) →
    matElemsH fuel st' es = matElemsH fuel st es
  | 0, st', st, n, es => fun _ _ _ => rfl
  | fuel + 1, st', st, n, [] => fun _ _ _ => rfl
  | fuel + 1, st', st, n, v :: rest => by
      intro hag hlo hes
      rw [matElemsH, matElemsH,
        materializeH_agree fuel st' st n v hag hlo (hes v (List.mem_cons_self _ _)),
        matElemsH_agree fuel st' st n rest hag hlo
          (fun x hx => hes x (List.mem_cons_of_mem _ hx))]

end

/-- **C9** — for every well-formed input heap, every root record address in
it, and every collaborator data set, when `fill`'s mutating skeleton
(deep-clone of the input record followed by the merge loop of
`setNestedValue` writes into the clone) completes, every address of the
caller's heap still holds exactly the object it held before the call; in
particular the input record materializes (reads back through
`JSON`-tree readout at every depth) to exactly its pre-call tree: the
original input is never mutated in place. -/
theorem c9_fill_never_mutates_input (fuel : Nat) (st0 : Store) (root : Nat)
    (data : List (String × Value)) (st2 : Store) (cl : Nat)
    (hwf : storeWFB st0 = true)
    (h : fillHeap fuel st0 root data = some (st2, cl)) :
    (∀ a, a < st0.next → lookupH st2 a = lookupH st0 a) ∧
    (root < st0.next →
      ∀ f, materializeH f st2 (HVal.ref root) = materializeH f st0 (HVal.ref root)) := by
  have hdom := storeWFB_domBelow st0 hwf
  have hfr0 : FrameOK st0 st0.next st0 := by
    refine ⟨Nat.le_refl _, hdom, ?_, fun a _ => rfl⟩
    intro a o ha hl
    exact absurd (lookupH_of_some_lt st0 a o hdom hl) (by omega)
  rw [fillHeap] at h
  rcases hc : deepCloneH fuel st0 (HVal.ref root) with _ | r
  · rw [hc] at h; simp at h
  · rw [hc] at h
    obtain ⟨st1, v1⟩ := r
    cases v1 with
    | prim p => simp at h
    | ref clv =>
        dsimp only at h
        rcases hm : heapMergeData st1 clv data with _ | stx
        · rw [hm] at h; simp at h
        · rw [hm] at h
          dsimp only at h
          injection h with h
          injection h with h1 h2
          subst h1
          subst h2
          obtain ⟨hf1, _, hcl⟩ := deepCloneH_spec fuel st0 (HVal.ref root) st1
            (HVal.ref clv) hc st0.next st0 hfr0
          have hf2 : FrameOK stx st0.next st0 :=
            heapMergeData_spec data st1 clv stx hm st0.next st0 hf1 hcl
          refine ⟨fun a ha => hf2.2.2.2 a ha, ?_⟩
          intro hr f
          exact materializeH_agree f stx st0 st0.next (HVal.ref root) hf2.2.2.2
            (storeWFB_loClosed st0 hwf) hr

theorem c9_fill_never_mutates_input_witness :
    lookupH ⟨[(0, HObj.hobj [("status", HVal.prim JPrim.jnull)]),
              (1, HObj.hobj [("status", HVal.prim (JPrim.jstr "x"))])], 2⟩ 0 =
      lookupH ⟨[(0, HObj.hobj [("status", HVal.prim JPrim.jnull)])], 1⟩ 0 ∧
    materializeH 4 ⟨[(0, HObj.hobj [("status", HVal.prim JPrim.jnull)]),
              (1, HObj.hobj [("status", HVal.prim (JPrim.jstr "x"))])], 2⟩ (HVal.ref 0) =
      materializeH 4 ⟨[(0, HObj.hobj [("status", HVal.prim JPrim.jnull)])], 1⟩ (HVal.ref 0) := by
  have h := c9_fill_never_mutates_input 4
    ⟨[(0, HObj.hobj [("status", HVal.prim JPrim.jnull)])], 1⟩ 0
    [("status", Value.vstr "x")]
    ⟨[(0, HObj.hobj [("status", HVal.prim JPrim.jnull)]),
      (1, HObj.hobj [("status", HVal.prim (JPrim.jstr "x"))])], 2⟩ 1
    (by decide) (by decide)
  exact ⟨h.1 0 (by decide), h.2 (by decide) 4⟩
